import Mathlib

/-!
# Exercice6: radial Poisson solver (finite elements, tridiagonal elimination)

Shallow embedding of `src/Exercice6/Exercice6.cpp`, in two readings of its arithmetic
that follow the source operation for operation.

* Exact reading (`solve`, `epsilonr`, `mesh`, `assemble`, `phi`, `fields`, ...): a
  `vector<double>` is a `List ℚ`, the arithmetic of the program is exact arithmetic over
  the rationals, and a decimal literal such as `1e-12` denotes its decimal value.  A
  statement "in exact arithmetic" is a statement about this reading.
* Binary64 reading (`F64`, `solve64`, `epsilonr64`, `mesh64`, `assemble64`, `phi64`,
  `fields64`, ...): a `double` is an IEEE 754 binary64 value with signed zeros, subnormal
  numbers, infinities and NaN; every operation of the source is rounded on its own, to
  nearest with ties to even (no fused multiply-add, no extended precision); a decimal
  literal or a value of the configuration file denotes the nearest `double`; `pow(x, 2)`
  is the rounded square.  The statements named `..._counterexample` evaluate this reading
  at concrete inputs.
* `v[i]` is `rd v i`, `v[i] = x` is `wr v i x`.  The program never checks an index; in
  the embedding a read outside the vector gives `0` and a write outside the vector
  does nothing.
* A `for` loop is a left fold of its body over the list of the values taken by the
  loop variable, in the order in which the loop visits them.
* The `int` quantities `N1`, `N2`, `ninters`, `npoints` and the loop counters are natural
  numbers (no `int` overflow is modelled); where the range of `int` matters, the
  hypothesis `npoints ≤ INT_MAX` states that lines 111-112 do not overflow.
* In the exact reading division is the total division of `ℚ` (`x / 0 = 0`); a `double`
  division by zero has no rational value, so every exact statement about a quotient
  computed by the program comes with the fact that its divisor is not zero.
-/

namespace Exercice6

/-! ## Vectors -/

/-- Read `v[i]`. -/
def rd (v : List ℚ) (i : Nat) : ℚ := v.getD i 0

/-- Write `v[i] = x`. -/
def wr (v : List ℚ) (i : Nat) (x : ℚ) : List ℚ := v.set i x

/-- The vector `vector<double> v(n)` (also `v(n, 0.)`): `n` zeros. -/
def zeros (n : Nat) : List ℚ := List.replicate n 0

/-! ## `solve` (lines 12-32) -/

/-- Body of the forward elimination loop (lines 20-22) on the pair
`(new_diag, new_rhs)`. -/
def elimStep (lower upper : List ℚ) (s : List ℚ × List ℚ) (i : Nat) : List ℚ × List ℚ :=
  let pivot := rd lower (i - 1) / rd s.1 (i - 1)
  (wr s.1 i (rd s.1 i - pivot * rd upper (i - 1)),
   wr s.2 i (rd s.2 i - pivot * rd s.2 (i - 1)))

/-- Forward elimination `for (size_t i(1); i < diag.size(); ++i)` started from the
copies `new_diag(diag)`, `new_rhs(rhs)`; returns `(new_diag, new_rhs)`. -/
def eliminate (diag lower upper rhs : List ℚ) : List ℚ × List ℚ :=
  (List.range' 1 (diag.length - 1)).foldl (elimStep lower upper) (diag, rhs)

/-- Body of the back substitution loop (line 29). -/
def backStep (upper new_diag new_rhs : List ℚ) (solution : List ℚ) (i : Nat) : List ℚ :=
  wr solution i ((rd new_rhs i - rd upper i * rd solution (i + 1)) / rd new_diag i)

/-- The function `solve`: forward elimination, last unknown, then
`for (int i(diag.size() - 2); i >= 0; --i)`, which visits `i = n - 2, ..., 0` and is empty
for `n = 1`.  The program indexes `solution[diag.size() - 1]`, so it is only defined for a
non-empty `diag`; on an empty `diag` the embedding returns the empty vector. -/
def solve (diag lower upper rhs : List ℚ) : List ℚ :=
  let n := diag.length
  let e := eliminate diag lower upper rhs
  let solution := wr (zeros n) (n - 1) (rd e.2 (n - 1) / rd e.1 (n - 1))
  (List.range (n - 1)).reverse.foldl (backStep upper e.1 e.2) solution

/-! ## `Epsilonr` and `Rho_lib` (lines 35-75) -/

/-- `Epsilonr::operator()` of an object built with `(trivial, b, R)`. -/
def epsilonr (trivial : Bool) (b R : ℚ) (r : ℚ) (left : Bool) : ℚ :=
  let eps := 1e-12 * b
  if trivial = true ∨ r ≤ b - eps ∨ (|r - b| ≤ eps ∧ left = true) then 1.0
  else 8.0 - 6.0 * (r - b) / (R - b)

/-- `Rho_lib::operator()` of an object built with `(trivial, b, a0)`. -/
def rho_lib (trivial : Bool) (b a0 : ℚ) (r : ℚ) : ℚ :=
  if trivial = true then 1.0
  else if r > b then 0.0
  else a0 * (1.0 - (r / b) ^ 2)

/-! ## `main` (lines 93-164) -/

/-- The values read from the configuration file. -/
structure Config where
  b : ℚ
  R : ℚ
  V0 : ℚ
  p : ℚ
  trivial : Bool
  a0 : ℚ
  N1 : Nat
  N2 : Nat

/-- Line 111: `ninters = N1 + N2`. -/
def Config.ninters (c : Config) : Nat := c.N1 + c.N2

/-- Line 112: `npoints = ninters + 1`. -/
def Config.npoints (c : Config) : Nat := c.ninters + 1

/-- Lines 113-117: the mesh `r`. -/
def mesh (c : Config) : List ℚ :=
  let h1 := c.b / c.N1
  let h2 := (c.R - c.b) / c.N2
  let r := zeros c.npoints
  let r := (List.range c.N1).foldl (fun r i => wr r i (i * h1)) r
  (List.range (c.N2 + 1)).foldl (fun r i => wr r (c.N1 + i) (c.b + i * h2)) r

/-- Lines 118-119: the interval widths `h`. -/
def widths (c : Config) (r : List ℚ) : List ℚ :=
  (List.range c.ninters).foldl (fun h i => wr h i (rd r (i + 1) - rd r i)) (zeros c.ninters)

/-- The four vectors `diag`, `lower`, `upper`, `rhs` of `main`. -/
structure System where
  diag : List ℚ
  lower : List ℚ
  upper : List ℚ
  rhs : List ℚ

/-- Lines 121-124: the vectors before the assembly loop. -/
def System.init (c : Config) : System :=
  { diag := zeros c.npoints, lower := zeros c.ninters,
    upper := zeros c.ninters, rhs := zeros c.npoints }

/-- Lines 129-140: the value of `integral` in iteration `k`. -/
def integral (c : Config) (r h : List ℚ) (k : Nat) : ℚ :=
  let epsilonr := epsilonr c.trivial c.b c.R
  let p := c.p
  if k < c.N1 then
    (p * (epsilonr (rd r k) true * rd r k + epsilonr (rd r (k + 1)) true * rd r (k + 1)) +
      (1 - p) * (epsilonr ((rd r k + rd r (k + 1)) / 2) true * (rd r k + rd r (k + 1)))) /
      (2 * rd h k)
  else
    (p * (epsilonr (rd r k) false * rd r k + epsilonr (rd r (k + 1)) false * rd r (k + 1)) +
      (1 - p) * (epsilonr ((rd r k + rd r (k + 1)) / 2) false * (rd r k + rd r (k + 1)))) /
      (2 * rd h k)

/-- Lines 146-149: the amount added to `rhs[k]` for the interval `[r[k], r[k+1]]`. -/
def loadRight (c : Config) (r : List ℚ) (k : Nat) : ℚ :=
  let rho_lib := rho_lib c.trivial c.b c.a0
  (c.p * rho_lib (rd r k) * 0.5 * rd r k +
    (1 - c.p) * rho_lib ((rd r k + rd r (k + 1)) / 2) * (rd r k + rd r (k + 1)) / 4) *
    (rd r (k + 1) - rd r k)

/-- Lines 151-154: the amount added to `rhs[k]` for the interval `[r[k-1], r[k]]`
(only evaluated when `k > 0`). -/
def loadLeft (c : Config) (r : List ℚ) (k : Nat) : ℚ :=
  let rho_lib := rho_lib c.trivial c.b c.a0
  (c.p * rho_lib (rd r k) * 0.5 * rd r k +
    (1 - c.p) * rho_lib ((rd r k + rd r (k - 1)) / 2) * (rd r k + rd r (k - 1)) / 4) *
    (rd r k - rd r (k - 1))

/-- Lines 128-155: body of the assembly loop. -/
def assembleStep (c : Config) (r h : List ℚ) (s : System) (k : Nat) : System :=
  let integral := integral c r h k
  let diag := wr s.diag k (rd s.diag k + integral)
  let diag := wr diag (k + 1) (rd diag (k + 1) + integral)
  let lower := wr s.lower k (rd s.lower k - integral)
  let upper := wr s.upper k (rd s.upper k - integral)
  let rhs := wr s.rhs k (rd s.rhs k + loadRight c r k)
  let rhs := if k > 0 then wr rhs k (rd rhs k + loadLeft c r k) else rhs
  { diag := diag, lower := lower, upper := upper, rhs := rhs }

/-- Lines 121-155: the system after the assembly loop `for (k = 0; k < ninters; k++)`,
before the boundary condition. -/
def assemble (c : Config) : System :=
  let r := mesh c
  let h := widths c r
  (List.range c.ninters).foldl (assembleStep c r h) (System.init c)

/-- Lines 159-161: the boundary condition. -/
def boundary (c : Config) (s : System) : System :=
  let rhs := wr s.rhs c.ninters c.V0
  let lower := wr s.lower (c.ninters - 1) 0
  let diag := wr s.diag c.ninters 1
  { diag := diag, lower := lower, upper := s.upper, rhs := rhs }

/-- The system handed to `solve` at line 164. -/
def assembled (c : Config) : System := boundary c (assemble c)

/-- Line 164: `phi`. -/
def phi (c : Config) : List ℚ :=
  let s := assembled c
  solve s.diag s.lower s.upper s.rhs


/-! ## `main`: post-processing (lines 174-204) -/

/-- The vectors `rmid`, `Er`, `Dr` of `main`. -/
structure Fields where
  rmid : List ℚ
  Er : List ℚ
  Dr : List ℚ

/-- Lines 178-182: body of the loop over the intervals. -/
def fieldStep (c : Config) (r h phi : List ℚ) (s : Fields) (i : Nat) : Fields :=
  let rmid := wr s.rmid i (0.5 * rd r i + 0.5 * rd r (i + 1))
  let Er := wr s.Er i ((rd phi i - rd phi (i + 1)) / rd h i)
  let Dr := wr s.Dr i (epsilonr c.trivial c.b c.R (rd rmid i) false * rd Er i)
  { rmid := rmid, Er := Er, Dr := Dr }

/-- Lines 174-183: `rmid`, `Er` and `Dr` after the loop `for (i = 0; i < ninters; ++i)`. -/
def fields (c : Config) : Fields :=
  let r := mesh c
  let h := widths c r
  (List.range c.ninters).foldl (fieldStep c r h (phi c))
    { rmid := zeros c.ninters, Er := zeros c.ninters, Dr := zeros c.ninters }

/-- The vectors `rmidmid`, `div_Er`, `div_Dr` of `main`. -/
structure Divergences where
  rmidmid : List ℚ
  div_Er : List ℚ
  div_Dr : List ℚ

/-- Lines 195-201: body of the loop over the midpoints of midpoints. -/
def divStep (rmid Er Dr : List ℚ) (s : Divergences) (i : Nat) : Divergences :=
  let rmidmid := wr s.rmidmid i (0.5 * rd rmid i + 0.5 * rd rmid (i + 1))
  let div_Er := wr s.div_Er i
    ((rd Er (i + 1) + rd Er i) / (2 * rd rmidmid i)
      + (rd Er (i + 1) - rd Er i) / (rd rmid (i + 1) - rd rmid i))
  let div_Dr := wr s.div_Dr i
    ((rd Dr (i + 1) + rd Dr i) / (2 * rd rmidmid i)
      + (rd Dr (i + 1) - rd Dr i) / (rd rmid (i + 1) - rd rmid i))
  { rmidmid := rmidmid, div_Er := div_Er, div_Dr := div_Dr }

/-- Lines 191-204: `rmidmid`, `div_Er` and `div_Dr` after the loop
`for (i = 0; i < ninters - 1; ++i)`, as a function of the vectors `rmid`, `Er`, `Dr`. -/
def divergences (ninters : Nat) (rmid Er Dr : List ℚ) : Divergences :=
  (List.range (ninters - 1)).foldl (divStep rmid Er Dr)
    { rmidmid := zeros (ninters - 1), div_Er := zeros (ninters - 1),
      div_Dr := zeros (ninters - 1) }

/-- Lines 191-204 in `main`: the divergences of the computed fields. -/
def mainDivergences (c : Config) : Divergences :=
  divergences c.ninters (fields c).rmid (fields c).Er (fields c).Dr

/-! ## `solve` with every element access checked -/

/-- Read `v[i]`, `none` when `i` is not an index of `v`. -/
def rdChecked (v : List ℚ) (i : Nat) : Option ℚ := v[i]?

/-- Write `v[i] = x`, `none` when `i` is not an index of `v`. -/
def wrChecked (v : List ℚ) (i : Nat) (x : ℚ) : Option (List ℚ) :=
  if i < v.length then some (v.set i x) else none

/-- Body of the forward elimination loop (lines 20-22), access by access. -/
def elimStepChecked (lower upper : List ℚ) (s : List ℚ × List ℚ) (i : Nat) :
    Option (List ℚ × List ℚ) := do
  let l ← rdChecked lower (i - 1)
  let d ← rdChecked s.1 (i - 1)
  let pivot := l / d
  let u ← rdChecked upper (i - 1)
  let di ← rdChecked s.1 i
  let new_diag ← wrChecked s.1 i (di - pivot * u)
  let rp ← rdChecked s.2 (i - 1)
  let ri ← rdChecked s.2 i
  let new_rhs ← wrChecked s.2 i (ri - pivot * rp)
  pure (new_diag, new_rhs)

/-- Body of the back substitution loop (line 29), access by access. -/
def backStepChecked (upper new_diag new_rhs : List ℚ) (solution : List ℚ) (i : Nat) :
    Option (List ℚ) := do
  let ri ← rdChecked new_rhs i
  let u ← rdChecked upper i
  let x ← rdChecked solution (i + 1)
  let d ← rdChecked new_diag i
  wrChecked solution i ((ri - u * x) / d)

/-- The function `solve` (lines 12-32) in which an access outside a vector ends the
computation with `none`. -/
def solveChecked (diag lower upper rhs : List ℚ) : Option (List ℚ) := do
  let n := diag.length
  let e ← (List.range' 1 (n - 1)).foldlM (elimStepChecked lower upper) (diag, rhs)
  let rn ← rdChecked e.2 (n - 1)
  let dn ← rdChecked e.1 (n - 1)
  let solution ← wrChecked (zeros n) (n - 1) (rn / dn)
  (List.range (n - 1)).reverse.foldlM (backStepChecked upper e.1 e.2) solution

/-! ## Binary64 arithmetic -/

/-- A binary64 (`double`) value: a finite number with its rational value (`fin 0` is `+0`),
the negative zero, an infinity with its sign, or a NaN.  Equality of two `F64` is identity
of the value (`fin 0` and `negZero` differ, `nan` equals itself); the comparisons made by
the program are `<` and `≤` below. -/
inductive F64 where
  | fin (q : ℚ)
  | negZero
  | inf (neg : Bool)
  | nan
  deriving DecidableEq

namespace F64

/-- Floor of the binary logarithm of a positive natural number, by halving. -/
def log2Fuel : Nat → Nat → Nat
  | 0, _ => 0
  | fuel + 1, n => if n < 2 then 0 else log2Fuel fuel (n / 2) + 1

/-- The power `2 ^ z` for an integer `z`. -/
def pow2 (z : Int) : ℚ :=
  if 0 ≤ z then ((2 ^ z.toNat : Nat) : ℚ) else 1 / ((2 ^ (-z).toNat : Nat) : ℚ)

/-- The quotient `num / den` rounded to the nearest integer, ties to even. -/
def roundHalfEven (num den : Nat) : Nat :=
  let m := num / den
  let r := num % den
  if 2 * r < den then m else if den < 2 * r then m + 1 else m + m % 2

/-- Rounding of a rational number to binary64: round to nearest, ties to even, with
subnormal numbers below `2 ^ (-1022)` and overflow to infinity from `2 ^ 1024`. -/
def round (q : ℚ) : F64 :=
  if q = 0 then fin 0
  else
    let n := q.num.natAbs
    let d := q.den
    let k : Int := (log2Fuel n n : Int) - (log2Fuel d d : Int)
    let e : Int := if pow2 k * d ≤ n then k else k - 1
    let s : Int := max e (-1022) - 52
    let m : Nat :=
      if 0 ≤ s then roundHalfEven n (d * 2 ^ s.toNat) else roundHalfEven (n * 2 ^ (-s).toNat) d
    let v : ℚ := m * pow2 s
    if pow2 1024 ≤ v then inf (decide (q < 0))
    else if m = 0 then (if q < 0 then negZero else fin 0)
    else fin (if q < 0 then -v else v)

/-- Sign bit. -/
def sign : F64 → Bool
  | fin q => decide (q < 0)
  | negZero => true
  | inf s => s
  | nan => false

/-- A zero of the given sign. -/
def zero (s : Bool) : F64 := if s then negZero else fin 0

/-- The rational value of a finite number (`none` for an infinity or a NaN). -/
def toRat? : F64 → Option ℚ
  | fin q => some q
  | negZero => some 0
  | _ => none

/-- The rational value of a finite number, `0` for an infinity or a NaN. -/
def toRat (x : F64) : ℚ := x.toRat?.getD 0

/-- Negation. -/
def neg : F64 → F64
  | fin q => if q = 0 then negZero else fin (-q)
  | negZero => fin 0
  | inf s => inf (!s)
  | nan => nan

/-- Absolute value (`std::abs`). -/
def abs : F64 → F64
  | fin q => fin |q|
  | negZero => fin 0
  | inf _ => inf false
  | nan => nan

/-- Addition. -/
def add : F64 → F64 → F64
  | nan, _ => nan
  | _, nan => nan
  | inf a, inf b => if a = b then inf a else nan
  | inf a, _ => inf a
  | _, inf b => inf b
  | negZero, negZero => negZero
  | negZero, fin q => fin q
  | fin q, negZero => fin q
  | fin a, fin b => if a + b = 0 then fin 0 else round (a + b)

/-- Subtraction. -/
def sub (x y : F64) : F64 := add x (neg y)

/-- Multiplication. -/
def mul (x y : F64) : F64 :=
  match x.toRat?, y.toRat? with
  | some a, some b => if a * b = 0 then zero (xor x.sign y.sign) else round (a * b)
  | some a, none => if y = nan ∨ a = 0 then nan else inf (xor x.sign y.sign)
  | none, some b => if x = nan ∨ b = 0 then nan else inf (xor x.sign y.sign)
  | none, none => if x = nan ∨ y = nan then nan else inf (xor x.sign y.sign)

/-- Division. -/
def div (x y : F64) : F64 :=
  match x.toRat?, y.toRat? with
  | some a, some b =>
    if b = 0 then (if a = 0 then nan else inf (xor x.sign y.sign))
    else if a = 0 then zero (xor x.sign y.sign) else round (a / b)
  | some _, none => if y = nan then nan else zero (xor x.sign y.sign)
  | none, some _ => if x = nan then nan else inf (xor x.sign y.sign)
  | none, none => nan

/-- Comparison `x < y` (false when an operand is a NaN). -/
def blt (x y : F64) : Bool :=
  match x.toRat?, y.toRat? with
  | some a, some b => decide (a < b)
  | some _, none => decide (y = inf false)
  | none, some _ => decide (x = inf true)
  | none, none => decide (x = inf true ∧ y = inf false)

/-- Comparison `x <= y` (false when an operand is a NaN). -/
def ble (x y : F64) : Bool :=
  match x.toRat?, y.toRat? with
  | some a, some b => decide (a ≤ b)
  | some _, none => decide (y = inf false)
  | none, some _ => decide (x = inf true)
  | none, none => decide (x ≠ nan ∧ y ≠ nan ∧ (x = inf true ∨ y = inf false))

instance : Add F64 := ⟨add⟩
instance : Sub F64 := ⟨sub⟩
instance : Mul F64 := ⟨mul⟩
instance : Div F64 := ⟨div⟩
instance : Neg F64 := ⟨neg⟩
instance : LT F64 := ⟨fun x y => blt x y = true⟩
instance : LE F64 := ⟨fun x y => ble x y = true⟩
instance (x y : F64) : Decidable (x < y) := inferInstanceAs (Decidable (blt x y = true))
instance (x y : F64) : Decidable (x ≤ y) := inferInstanceAs (Decidable (ble x y = true))
instance (n : Nat) : OfNat F64 n := ⟨round n⟩
instance : NatCast F64 := ⟨fun n => round n⟩
instance : OfScientific F64 := ⟨fun m s e => round (OfScientific.ofScientific m s e)⟩

end F64

/-! ## The program in binary64 -/

/-- Read `v[i]` of a vector of `double`. -/
def rd64 (v : List F64) (i : Nat) : F64 := v.getD i (F64.fin 0)

/-- Write `v[i] = x` in a vector of `double`. -/
def wr64 (v : List F64) (i : Nat) (x : F64) : List F64 := v.set i x

/-- The vector `vector<double> v(n)` (also `v(n, 0.)`): `n` zeros. -/
def zeros64 (n : Nat) : List F64 := List.replicate n (F64.fin 0)

/-- Body of the forward elimination loop (lines 20-22), in binary64. -/
def elimStep64 (lower upper : List F64) (s : List F64 × List F64) (i : Nat) :
    List F64 × List F64 :=
  let pivot := rd64 lower (i - 1) / rd64 s.1 (i - 1)
  (wr64 s.1 i (rd64 s.1 i - pivot * rd64 upper (i - 1)),
   wr64 s.2 i (rd64 s.2 i - pivot * rd64 s.2 (i - 1)))

/-- Forward elimination (lines 16-23), in binary64; returns `(new_diag, new_rhs)`. -/
def eliminate64 (diag lower upper rhs : List F64) : List F64 × List F64 :=
  (List.range' 1 (diag.length - 1)).foldl (elimStep64 lower upper) (diag, rhs)

/-- Body of the back substitution loop (line 29), in binary64. -/
def backStep64 (upper new_diag new_rhs : List F64) (solution : List F64) (i : Nat) :
    List F64 :=
  wr64 solution i ((rd64 new_rhs i - rd64 upper i * rd64 solution (i + 1)) / rd64 new_diag i)

/-- The function `solve` (lines 12-32), in binary64. -/
def solve64 (diag lower upper rhs : List F64) : List F64 :=
  let n := diag.length
  let e := eliminate64 diag lower upper rhs
  let solution := wr64 (zeros64 n) (n - 1) (rd64 e.2 (n - 1) / rd64 e.1 (n - 1))
  (List.range (n - 1)).reverse.foldl (backStep64 upper e.1 e.2) solution

/-- `Epsilonr::operator()` (lines 40-48), in binary64. -/
def epsilonr64 (trivial : Bool) (b R : F64) (r : F64) (left : Bool) : F64 :=
  let eps := 1e-12 * b
  if trivial = true ∨ r ≤ b - eps ∨ (F64.abs (r - b) ≤ eps ∧ left = true) then 1.0
  else 8.0 - 6.0 * (r - b) / (R - b)

/-- `Rho_lib::operator()` (lines 61-70), in binary64; `pow(x, 2)` is the rounded square. -/
def rho_lib64 (trivial : Bool) (b a0 : F64) (r : F64) : F64 :=
  if trivial = true then 1.0
  else if b < r then 0.0
  else a0 * (1.0 - (r / b) * (r / b))

/-- The values read from the configuration file, as `double` and `int` values. -/
structure Config64 where
  b : F64
  R : F64
  V0 : F64
  p : F64
  trivial : Bool
  a0 : F64
  N1 : Nat
  N2 : Nat

/-- Line 111: `ninters = N1 + N2`. -/
def Config64.ninters (c : Config64) : Nat := c.N1 + c.N2

/-- Line 112: `npoints = ninters + 1`. -/
def Config64.npoints (c : Config64) : Nat := c.ninters + 1

/-- Lines 113-117: the mesh `r`, in binary64. -/
def mesh64 (c : Config64) : List F64 :=
  let h1 := c.b / (c.N1 : F64)
  let h2 := (c.R - c.b) / (c.N2 : F64)
  let r := zeros64 c.npoints
  let r := (List.range c.N1).foldl (fun r i => wr64 r i ((i : F64) * h1)) r
  (List.range (c.N2 + 1)).foldl (fun r i => wr64 r (c.N1 + i) (c.b + (i : F64) * h2)) r

/-- Lines 118-119: the interval widths `h`, in binary64. -/
def widths64 (c : Config64) (r : List F64) : List F64 :=
  (List.range c.ninters).foldl (fun h i => wr64 h i (rd64 r (i + 1) - rd64 r i))
    (zeros64 c.ninters)

/-- The four vectors `diag`, `lower`, `upper`, `rhs` of `main`, in binary64. -/
structure System64 where
  diag : List F64
  lower : List F64
  upper : List F64
  rhs : List F64

/-- Lines 121-124: the vectors before the assembly loop. -/
def System64.init (c : Config64) : System64 :=
  { diag := zeros64 c.npoints, lower := zeros64 c.ninters,
    upper := zeros64 c.ninters, rhs := zeros64 c.npoints }

/-- Lines 129-140: the value of `integral` in iteration `k`, in binary64. -/
def integral64 (c : Config64) (r h : List F64) (k : Nat) : F64 :=
  let epsilonr := epsilonr64 c.trivial c.b c.R
  let p := c.p
  if k < c.N1 then
    (p * (epsilonr (rd64 r k) true * rd64 r k + epsilonr (rd64 r (k + 1)) true * rd64 r (k + 1)) +
      (1 - p) * (epsilonr ((rd64 r k + rd64 r (k + 1)) / 2) true * (rd64 r k + rd64 r (k + 1)))) /
      (2 * rd64 h k)
  else
    (p * (epsilonr (rd64 r k) false * rd64 r k
        + epsilonr (rd64 r (k + 1)) false * rd64 r (k + 1)) +
      (1 - p) * (epsilonr ((rd64 r k + rd64 r (k + 1)) / 2) false * (rd64 r k + rd64 r (k + 1)))) /
      (2 * rd64 h k)

/-- Lines 146-149: the amount added to `rhs[k]` for `[r[k], r[k+1]]`, in binary64. -/
def loadRight64 (c : Config64) (r : List F64) (k : Nat) : F64 :=
  let rho_lib := rho_lib64 c.trivial c.b c.a0
  (c.p * rho_lib (rd64 r k) * 0.5 * rd64 r k +
    (1 - c.p) * rho_lib ((rd64 r k + rd64 r (k + 1)) / 2) * (rd64 r k + rd64 r (k + 1)) / 4) *
    (rd64 r (k + 1) - rd64 r k)

/-- Lines 151-154: the amount added to `rhs[k]` for `[r[k-1], r[k]]`, in binary64. -/
def loadLeft64 (c : Config64) (r : List F64) (k : Nat) : F64 :=
  let rho_lib := rho_lib64 c.trivial c.b c.a0
  (c.p * rho_lib (rd64 r k) * 0.5 * rd64 r k +
    (1 - c.p) * rho_lib ((rd64 r k + rd64 r (k - 1)) / 2) * (rd64 r k + rd64 r (k - 1)) / 4) *
    (rd64 r k - rd64 r (k - 1))

/-- Lines 128-155: body of the assembly loop, in binary64. -/
def assembleStep64 (c : Config64) (r h : List F64) (s : System64) (k : Nat) : System64 :=
  let integral := integral64 c r h k
  let diag := wr64 s.diag k (rd64 s.diag k + integral)
  let diag := wr64 diag (k + 1) (rd64 diag (k + 1) + integral)
  let lower := wr64 s.lower k (rd64 s.lower k - integral)
  let upper := wr64 s.upper k (rd64 s.upper k - integral)
  let rhs := wr64 s.rhs k (rd64 s.rhs k + loadRight64 c r k)
  let rhs := if k > 0 then wr64 rhs k (rd64 rhs k + loadLeft64 c r k) else rhs
  { diag := diag, lower := lower, upper := upper, rhs := rhs }

/-- Lines 121-155: the system after the assembly loop, in binary64. -/
def assemble64 (c : Config64) : System64 :=
  let r := mesh64 c
  let h := widths64 c r
  (List.range c.ninters).foldl (assembleStep64 c r h) (System64.init c)

/-- Lines 159-161: the boundary condition, in binary64. -/
def boundary64 (c : Config64) (s : System64) : System64 :=
  let rhs := wr64 s.rhs c.ninters c.V0
  let lower := wr64 s.lower (c.ninters - 1) 0
  let diag := wr64 s.diag c.ninters 1
  { diag := diag, lower := lower, upper := s.upper, rhs := rhs }

/-- The system handed to `solve` at line 164, in binary64. -/
def assembled64 (c : Config64) : System64 := boundary64 c (assemble64 c)

/-- Line 164: `phi`, in binary64. -/
def phi64 (c : Config64) : List F64 :=
  let s := assembled64 c
  solve64 s.diag s.lower s.upper s.rhs

/-- The vectors `rmid`, `Er`, `Dr` of `main`, in binary64. -/
structure Fields64 where
  rmid : List F64
  Er : List F64
  Dr : List F64

/-- Lines 178-182: body of the loop over the intervals, in binary64. -/
def fieldStep64 (c : Config64) (r h phi : List F64) (s : Fields64) (i : Nat) : Fields64 :=
  let rmid := wr64 s.rmid i (0.5 * rd64 r i + 0.5 * rd64 r (i + 1))
  let Er := wr64 s.Er i ((rd64 phi i - rd64 phi (i + 1)) / rd64 h i)
  let Dr := wr64 s.Dr i (epsilonr64 c.trivial c.b c.R (rd64 rmid i) false * rd64 Er i)
  { rmid := rmid, Er := Er, Dr := Dr }

/-- Lines 174-183: `rmid`, `Er` and `Dr`, in binary64. -/
def fields64 (c : Config64) : Fields64 :=
  let r := mesh64 c
  let h := widths64 c r
  (List.range c.ninters).foldl (fieldStep64 c r h (phi64 c))
    { rmid := zeros64 c.ninters, Er := zeros64 c.ninters, Dr := zeros64 c.ninters }

/-- The vectors `rmidmid`, `div_Er`, `div_Dr` of `main`, in binary64. -/
structure Divergences64 where
  rmidmid : List F64
  div_Er : List F64
  div_Dr : List F64

/-- Lines 195-201: body of the loop over the midpoints of midpoints, in binary64. -/
def divStep64 (rmid Er Dr : List F64) (s : Divergences64) (i : Nat) : Divergences64 :=
  let rmidmid := wr64 s.rmidmid i (0.5 * rd64 rmid i + 0.5 * rd64 rmid (i + 1))
  let div_Er := wr64 s.div_Er i
    ((rd64 Er (i + 1) + rd64 Er i) / (2 * rd64 rmidmid i)
      + (rd64 Er (i + 1) - rd64 Er i) / (rd64 rmid (i + 1) - rd64 rmid i))
  let div_Dr := wr64 s.div_Dr i
    ((rd64 Dr (i + 1) + rd64 Dr i) / (2 * rd64 rmidmid i)
      + (rd64 Dr (i + 1) - rd64 Dr i) / (rd64 rmid (i + 1) - rd64 rmid i))
  { rmidmid := rmidmid, div_Er := div_Er, div_Dr := div_Dr }

/-- Lines 191-204: `rmidmid`, `div_Er` and `div_Dr`, in binary64, as a function of the
vectors `rmid`, `Er`, `Dr`. -/
def divergences64 (ninters : Nat) (rmid Er Dr : List F64) : Divergences64 :=
  (List.range (ninters - 1)).foldl (divStep64 rmid Er Dr)
    { rmidmid := zeros64 (ninters - 1), div_Er := zeros64 (ninters - 1),
      div_Dr := zeros64 (ninters - 1) }

/-! ## Concrete configurations -/

/-- End-to-end scenario 1: `trivial = true`, `N1 = N2 = 2`, `b = 1`, `R = 2`, `V0 = 5`,
`p = 1`, `a0 = 0`. -/
def scenario1 : Config :=
  { b := 1, R := 2, V0 := 5, p := 1, trivial := true, a0 := 0, N1 := 2, N2 := 2 }

/-- End-to-end scenario 2: one interval per region, `N1 = N2 = 1`, non-trivial mode. -/
def scenario2 : Config :=
  { b := 1, R := 2, V0 := 5, p := 1 / 2, trivial := false, a0 := 3, N1 := 1, N2 := 1 }

/-- A non-trivial configuration with three inner and two outer intervals. -/
def scenario3 : Config :=
  { b := 2, R := 5, V0 := -1, p := 1 / 4, trivial := false, a0 := 7, N1 := 3, N2 := 2 }

/-- A configuration whose `N1 = 10^12` is beyond the range of `int`. -/
def beyondInt : Config :=
  { b := 1, R := 2, V0 := 0, p := 0, trivial := false, a0 := 0, N1 := 1000000000000, N2 := 1 }

/-- Scenario 1 read in binary64. -/
def scenario1_64 : Config64 :=
  { b := 1, R := 2, V0 := 5, p := 1, trivial := true, a0 := 0, N1 := 2, N2 := 2 }

/-- Scenario 3 read in binary64. -/
def scenario3_64 : Config64 :=
  { b := 2, R := 5, V0 := -1, p := 0.25, trivial := false, a0 := 7, N1 := 3, N2 := 2 }

/-- Scenario 1 with the boundary potential `V0 = 3e21`. -/
def largePotential : Config64 :=
  { b := 1, R := 2, V0 := 3e21, p := 1, trivial := true, a0 := 0, N1 := 2, N2 := 2 }

/-- One interval per region, trivial mode, `p = 0.3`. -/
def unitPair : Config64 :=
  { b := 1, R := 2, V0 := 5, p := 0.3, trivial := true, a0 := 0, N1 := 1, N2 := 1 }

/-! ## Auxiliary definitions for the proofs -/

/-- The state of the forward elimination after the iterations `i = 1, ..., m`. -/
def elimN (diag lower upper rhs : List ℚ) (m : Nat) : List ℚ × List ℚ :=
  (List.range' 1 m).foldl (elimStep lower upper) (diag, rhs)

/-- The back substitution loop run over `i = m - 1, ..., 0` from the vector `sol`. -/
def backFrom (upper nd nr : List ℚ) (sol : List ℚ) (m : Nat) : List ℚ :=
  (List.range m).reverse.foldl (backStep upper nd nr) sol

/-- Row `i` of the tridiagonal system `(diag, lower, upper)` applied to `x`. -/
def rowValue (diag lower upper x : List ℚ) (i : Nat) : ℚ :=
  (if i = 0 then 0 else rd lower (i - 1) * rd x (i - 1)) + rd diag i * rd x i
    + (if i = diag.length - 1 then 0 else rd upper i * rd x (i + 1))

/-- The system after the iterations `k = 0, ..., m - 1` of the assembly loop. -/
def assembleN (c : Config) (m : Nat) : System :=
  (List.range m).foldl (assembleStep c (mesh c) (widths c (mesh c))) (System.init c)

/-- The value of `integral` in iteration `k` of the assembly loop of `main`. -/
def stiff (c : Config) (k : Nat) : ℚ := integral c (mesh c) (widths c (mesh c)) k

/-- The total amount added to `rhs[k]` in iteration `k` of the assembly loop of `main`. -/
def load (c : Config) (k : Nat) : ℚ :=
  loadRight c (mesh c) k + (if k > 0 then loadLeft c (mesh c) k else 0)

/-- The vectors `(new_diag, new_rhs)` computed by `solve` on the assembled system. -/
def eliminated (c : Config) : List ℚ × List ℚ :=
  eliminate (assembled c).diag (assembled c).lower (assembled c).upper (assembled c).rhs

/-- The vectors `rmid`, `Er`, `Dr` after the iterations `i = 0, ..., m - 1` of the loop
over the intervals. -/
def fieldsN (c : Config) (m : Nat) : Fields :=
  (List.range m).foldl (fieldStep c (mesh c) (widths c (mesh c)) (phi c))
    { rmid := zeros c.ninters, Er := zeros c.ninters, Dr := zeros c.ninters }

/-- The vectors `rmidmid`, `div_Er`, `div_Dr` after the iterations `i = 0, ..., m - 1` of
the loop over the midpoints of midpoints. -/
def divN (ninters : Nat) (rmid Er Dr : List ℚ) (m : Nat) : Divergences :=
  (List.range m).foldl (divStep rmid Er Dr)
    { rmidmid := zeros (ninters - 1), div_Er := zeros (ninters - 1),
      div_Dr := zeros (ninters - 1) }

theorem length_wr (v : List ℚ) (i : Nat) (x : ℚ) : (wr v i x).length = v.length := by
  simp [wr]

theorem length_zeros (n : Nat) : (zeros n).length = n := by
  simp [zeros]

theorem rd_zeros (n i : Nat) : rd (zeros n) i = 0 := by
  unfold rd zeros
  rw [List.getD_eq_getElem?_getD]
  by_cases h : i < n
  · simp [List.getElem?_replicate, h]
  · simp [List.getElem?_replicate, h]

theorem rd_wr (v : List ℚ) (i j : Nat) (x : ℚ) :
    rd (wr v i x) j = if i = j ∧ j < v.length then x else rd v j := by
  unfold rd wr
  simp only [List.getD_eq_getElem?_getD, List.getElem?_set]
  by_cases hij : i = j
  · subst hij
    by_cases hl : i < v.length
    · simp [hl]
    · simp [hl]
      have : v.length ≤ i := Nat.le_of_not_lt hl
      simp [List.getElem?_eq_none this]
  · simp [hij]

theorem rd_wr_same (v : List ℚ) (i : Nat) (x : ℚ) (h : i < v.length) :
    rd (wr v i x) i = x := by
  simp [rd_wr, h]

theorem rd_wr_ne (v : List ℚ) (i j : Nat) (x : ℚ) (h : i ≠ j) :
    rd (wr v i x) j = rd v j := by
  simp [rd_wr, h]

theorem rd_of_le (v : List ℚ) (i : Nat) (h : v.length ≤ i) : rd v i = 0 := by
  unfold rd
  rw [List.getD_eq_getElem?_getD, List.getElem?_eq_none h]
  rfl

/-! ## Forward elimination -/

theorem elimN_zero (diag lower upper rhs : List ℚ) :
    elimN diag lower upper rhs 0 = (diag, rhs) := by
  simp [elimN]

theorem elimN_succ (diag lower upper rhs : List ℚ) (m : Nat) :
    elimN diag lower upper rhs (m + 1)
      = elimStep lower upper (elimN diag lower upper rhs m) (m + 1) := by
  simp [elimN, List.range'_concat, List.foldl_append, Nat.add_comm]

theorem eliminate_eq (diag lower upper rhs : List ℚ) :
    eliminate diag lower upper rhs = elimN diag lower upper rhs (diag.length - 1) := rfl

theorem elimN_length (diag lower upper rhs : List ℚ) (m : Nat) :
    (elimN diag lower upper rhs m).1.length = diag.length ∧
    (elimN diag lower upper rhs m).2.length = rhs.length := by
  induction m with
  | zero => simp [elimN_zero]
  | succ m ih => simp [elimN_succ, elimStep, length_wr, ih]

/-- Entries beyond the last processed index are still the input. -/
theorem elimN_untouched (diag lower upper rhs : List ℚ) (m i : Nat) (h : m < i) :
    rd (elimN diag lower upper rhs m).1 i = rd diag i ∧
    rd (elimN diag lower upper rhs m).2 i = rd rhs i := by
  induction m with
  | zero => simp [elimN_zero]
  | succ m ih =>
    have h1 : m + 1 ≠ i := by omega
    have h2 := ih (by omega)
    simp [elimN_succ, elimStep, rd_wr_ne _ _ _ _ h1, h2]

/-- Row `0` is never written. -/
theorem elimN_zero_row (diag lower upper rhs : List ℚ) (m : Nat) :
    rd (elimN diag lower upper rhs m).1 0 = rd diag 0 ∧
    rd (elimN diag lower upper rhs m).2 0 = rd rhs 0 := by
  induction m with
  | zero => simp [elimN_zero]
  | succ m ih =>
    have h1 : m + 1 ≠ 0 := by omega
    simp [elimN_succ, elimStep, rd_wr_ne _ _ _ _ h1, ih]

/-- Entries at or below the last processed index are final. -/
theorem elimN_stable (diag lower upper rhs : List ℚ) (m k i : Nat) (h : i ≤ m) :
    rd (elimN diag lower upper rhs (m + k)).1 i = rd (elimN diag lower upper rhs m).1 i ∧
    rd (elimN diag lower upper rhs (m + k)).2 i = rd (elimN diag lower upper rhs m).2 i := by
  induction k with
  | zero => simp
  | succ k ih =>
    have h1 : m + k + 1 ≠ i := by omega
    rw [← Nat.add_assoc, elimN_succ]
    simp [elimStep, rd_wr_ne _ _ _ _ h1, ih]

/-- The recurrence satisfied by the eliminated diagonal and right-hand side. -/
theorem elimN_rec (diag lower upper rhs : List ℚ) (hr : rhs.length = diag.length)
    (m i : Nat) (h1 : 1 ≤ i) (him : i ≤ m) (hi : i < diag.length) :
    rd (elimN diag lower upper rhs m).1 i
      = rd diag i - rd lower (i - 1) / rd (elimN diag lower upper rhs m).1 (i - 1)
          * rd upper (i - 1) ∧
    rd (elimN diag lower upper rhs m).2 i
      = rd rhs i - rd lower (i - 1) / rd (elimN diag lower upper rhs m).1 (i - 1)
          * rd (elimN diag lower upper rhs m).2 (i - 1) := by
  obtain ⟨j, rfl⟩ : ∃ j, i = j + 1 := ⟨i - 1, by omega⟩
  obtain ⟨k, rfl⟩ : ∃ k, m = j + 1 + k := ⟨m - (j + 1), by omega⟩
  have hs := elimN_stable diag lower upper rhs (j + 1) k (j + 1) (Nat.le_refl _)
  have hs' := elimN_stable diag lower upper rhs (j + 1) k j (by omega)
  have hu := elimN_untouched diag lower upper rhs j (j + 1) (by omega)
  have hl := elimN_length diag lower upper rhs j
  rw [hs.1, hs.2]
  simp only [Nat.add_sub_cancel, hs'.1, hs'.2]
  have hne : j + 1 ≠ j := by omega
  have e1 : rd (elimN diag lower upper rhs (j + 1)).1 j = rd (elimN diag lower upper rhs j).1 j := by
    simp [elimN_succ, elimStep, rd_wr_ne _ _ _ _ hne]
  have e2 : rd (elimN diag lower upper rhs (j + 1)).2 j = rd (elimN diag lower upper rhs j).2 j := by
    simp [elimN_succ, elimStep, rd_wr_ne _ _ _ _ hne]
  rw [e1, e2]
  constructor
  · simp only [elimN_succ, elimStep, Nat.add_sub_cancel]
    rw [rd_wr_same _ _ _ (by rw [hl.1]; exact hi), hu.1]
  · simp only [elimN_succ, elimStep, Nat.add_sub_cancel]
    rw [rd_wr_same _ _ _ (by rw [hl.2, hr]; exact hi), hu.2]


/-! ## Back substitution -/

theorem backFrom_zero (upper nd nr sol : List ℚ) : backFrom upper nd nr sol 0 = sol := by
  simp [backFrom]

theorem backFrom_succ (upper nd nr sol : List ℚ) (m : Nat) :
    backFrom upper nd nr sol (m + 1) = backFrom upper nd nr (backStep upper nd nr sol m) m := by
  simp [backFrom, List.range_succ]

theorem backFrom_length (upper nd nr : List ℚ) (m : Nat) :
    ∀ sol : List ℚ, (backFrom upper nd nr sol m).length = sol.length := by
  induction m with
  | zero => intro sol; simp [backFrom_zero]
  | succ m ih => intro sol; rw [backFrom_succ, ih]; simp [backStep, length_wr]

theorem backFrom_untouched (upper nd nr : List ℚ) (m : Nat) :
    ∀ (sol : List ℚ) (i : Nat), m ≤ i → rd (backFrom upper nd nr sol m) i = rd sol i := by
  induction m with
  | zero => intro sol i _; simp [backFrom_zero]
  | succ m ih =>
    intro sol i h
    have h1 : m ≠ i := by omega
    rw [backFrom_succ, ih _ i (by omega)]
    simp [backStep, rd_wr_ne _ _ _ _ h1]

theorem backFrom_rec (upper nd nr : List ℚ) (m : Nat) :
    ∀ (sol : List ℚ) (i : Nat), i < m → m ≤ sol.length →
      rd (backFrom upper nd nr sol m) i
        = (rd nr i - rd upper i * rd (backFrom upper nd nr sol m) (i + 1)) / rd nd i := by
  induction m with
  | zero => intro sol i h; omega
  | succ m ih =>
    intro sol i h hl
    rw [backFrom_succ]
    by_cases him : i < m
    · exact ih _ i him (by simp [backStep, length_wr]; omega)
    · have e : i = m := by omega
      subst e
      rw [backFrom_untouched _ _ _ _ _ i (Nat.le_refl _),
        backFrom_untouched _ _ _ _ _ (i + 1) (by omega)]
      have h1 : i ≠ i + 1 := by omega
      simp only [backStep]
      rw [rd_wr_same _ _ _ (by omega), rd_wr_ne _ _ _ _ h1]

theorem solve_eq (diag lower upper rhs : List ℚ) :
    solve diag lower upper rhs
      = backFrom upper (eliminate diag lower upper rhs).1 (eliminate diag lower upper rhs).2
          (wr (zeros diag.length) (diag.length - 1)
            (rd (eliminate diag lower upper rhs).2 (diag.length - 1)
              / rd (eliminate diag lower upper rhs).1 (diag.length - 1)))
          (diag.length - 1) := rfl

theorem solve_length (diag lower upper rhs : List ℚ) :
    (solve diag lower upper rhs).length = diag.length := by
  rw [solve_eq, backFrom_length, length_wr, length_zeros]

/-- The last unknown. -/
theorem solve_last (diag lower upper rhs : List ℚ) (hn : 1 ≤ diag.length) :
    rd (solve diag lower upper rhs) (diag.length - 1)
      = rd (eliminate diag lower upper rhs).2 (diag.length - 1)
          / rd (eliminate diag lower upper rhs).1 (diag.length - 1) := by
  rw [solve_eq, backFrom_untouched _ _ _ _ _ _ (Nat.le_refl _),
    rd_wr_same _ _ _ (by rw [length_zeros]; omega)]

/-- The other unknowns. -/
theorem solve_rec (diag lower upper rhs : List ℚ) (i : Nat) (hi : i < diag.length - 1) :
    rd (solve diag lower upper rhs) i
      = (rd (eliminate diag lower upper rhs).2 i
          - rd upper i * rd (solve diag lower upper rhs) (i + 1))
          / rd (eliminate diag lower upper rhs).1 i := by
  rw [solve_eq]
  exact backFrom_rec _ _ _ _ _ i hi (by rw [length_wr, length_zeros]; omega)

/-- The solution satisfies the upper bidiagonal system left by the elimination. -/
theorem solve_upper_row (diag lower upper rhs : List ℚ) (i : Nat) (hi : i < diag.length)
    (hp : rd (eliminate diag lower upper rhs).1 i ≠ 0) :
    rd (eliminate diag lower upper rhs).1 i * rd (solve diag lower upper rhs) i
      + (if i = diag.length - 1 then 0
          else rd upper i * rd (solve diag lower upper rhs) (i + 1))
      = rd (eliminate diag lower upper rhs).2 i := by
  by_cases h : i = diag.length - 1
  · rw [if_pos h]
    subst h
    rw [solve_last _ _ _ _ (by omega)]
    field_simp
  · rw [if_neg h, solve_rec _ _ _ _ i (by omega)]
    field_simp

/-- The recurrence of the elimination, for the final vectors. -/
theorem eliminate_rec (diag lower upper rhs : List ℚ) (hr : rhs.length = diag.length)
    (i : Nat) (h1 : 1 ≤ i) (hi : i < diag.length) :
    rd (eliminate diag lower upper rhs).1 i
      = rd diag i - rd lower (i - 1) / rd (eliminate diag lower upper rhs).1 (i - 1)
          * rd upper (i - 1) ∧
    rd (eliminate diag lower upper rhs).2 i
      = rd rhs i - rd lower (i - 1) / rd (eliminate diag lower upper rhs).1 (i - 1)
          * rd (eliminate diag lower upper rhs).2 (i - 1) := by
  rw [eliminate_eq]
  exact elimN_rec diag lower upper rhs hr _ i h1 (by omega) hi

theorem eliminate_zero_row (diag lower upper rhs : List ℚ) :
    rd (eliminate diag lower upper rhs).1 0 = rd diag 0 ∧
    rd (eliminate diag lower upper rhs).2 0 = rd rhs 0 := by
  rw [eliminate_eq]
  exact elimN_zero_row diag lower upper rhs _

theorem solve_row (diag lower upper rhs : List ℚ) (hr : rhs.length = diag.length)
    (hp : ∀ i, i < diag.length → rd (eliminate diag lower upper rhs).1 i ≠ 0)
    (i : Nat) (hi : i < diag.length) :
    rowValue diag lower upper (solve diag lower upper rhs) i = rd rhs i := by
  unfold rowValue
  have hU := solve_upper_row diag lower upper rhs i hi (hp i hi)
  by_cases h0 : i = 0
  · subst h0
    have hz := eliminate_zero_row diag lower upper rhs
    rw [hz.1, hz.2] at hU
    simpa using hU
  · rw [if_neg h0]
    have hrec := eliminate_rec diag lower upper rhs hr i (by omega) hi
    have hV := solve_upper_row diag lower upper rhs (i - 1) (by omega) (hp (i - 1) (by omega))
    rw [if_neg (by omega), Nat.sub_add_cancel (by omega)] at hV
    have hne := hp (i - 1) (by omega)
    have hpiv : rd lower (i - 1) / rd (eliminate diag lower upper rhs).1 (i - 1)
        * rd (eliminate diag lower upper rhs).1 (i - 1) = rd lower (i - 1) :=
      div_mul_cancel₀ _ hne
    generalize rd lower (i - 1) / rd (eliminate diag lower upper rhs).1 (i - 1) = piv at hrec hpiv
    generalize (if i = diag.length - 1 then (0 : ℚ)
      else rd upper i * rd (solve diag lower upper rhs) (i + 1)) = up at hU ⊢
    obtain ⟨hd, hrh⟩ := hrec
    linear_combination hU - rd (solve diag lower upper rhs) i * hd + hrh + piv * hV
      - rd (solve diag lower upper rhs) (i - 1) * hpiv

/-- With zero bands, the elimination leaves the system unchanged. -/
theorem eliminate_zero_lower (diag lower upper rhs : List ℚ) (hr : rhs.length = diag.length)
    (hl : ∀ k, rd lower k = 0) (i : Nat) (hi : i < diag.length) :
    rd (eliminate diag lower upper rhs).1 i = rd diag i ∧
    rd (eliminate diag lower upper rhs).2 i = rd rhs i := by
  by_cases h0 : i = 0
  · subst h0; exact eliminate_zero_row diag lower upper rhs
  · have hrec := eliminate_rec diag lower upper rhs hr i (by omega) hi
    rw [hl (i - 1)] at hrec
    simpa using hrec


/-- C1. Correctness of `solve` in exact arithmetic: for `n ≥ 1`, `diag` and `rhs` of length
`n`, `lower` and `upper` of length `n - 1`, if every updated diagonal entry left by the
forward elimination is non-zero, then the returned vector has length `n` and satisfies
every row equation `lower[i-1]*x[i-1] + diag[i]*x[i] + upper[i]*x[i+1] = rhs[i]` (no lower
term in row `0`, no upper term in row `n-1`); and when both bands are zero,
`x[i] = rhs[i] / diag[i]`. -/
theorem solve_correct (n : Nat) (diag lower upper rhs : List ℚ) (hn : 1 ≤ n)
    (hd : diag.length = n) (hl : lower.length = n - 1) (hu : upper.length = n - 1)
    (hr : rhs.length = n)
    (hp : ∀ i, i < n → rd (eliminate diag lower upper rhs).1 i ≠ 0) :
    (solve diag lower upper rhs).length = n ∧
    (∀ i, i < n →
      (if i = 0 then 0 else rd lower (i - 1) * rd (solve diag lower upper rhs) (i - 1))
        + rd diag i * rd (solve diag lower upper rhs) i
        + (if i = n - 1 then 0 else rd upper i * rd (solve diag lower upper rhs) (i + 1))
        = rd rhs i) ∧
    ((∀ k, k < n - 1 → rd lower k = 0 ∧ rd upper k = 0) →
      ∀ i, i < n → rd (solve diag lower upper rhs) i = rd rhs i / rd diag i) := by
  subst hd
  refine ⟨solve_length _ _ _ _, ?_, ?_⟩
  · intro i hi
    exact solve_row diag lower upper rhs hr hp i hi
  · intro hz i hi
    have hlow : ∀ k, rd lower k = 0 := by
      intro k
      by_cases hk : k < diag.length - 1
      · exact (hz k hk).1
      · exact rd_of_le _ _ (by omega)
    have he := eliminate_zero_lower diag lower upper rhs hr hlow i hi
    by_cases h : i = diag.length - 1
    · have hs := solve_last diag lower upper rhs hn
      rw [← h] at hs
      rw [hs, he.1, he.2]
    · rw [solve_rec _ _ _ _ i (by omega), he.1, he.2, (hz i (by omega)).2]
      simp

theorem solve_correct_witness :
    (solve [2, 3] [1] [1] [3, 4]).length = 2 ∧
    (∀ i, i < 2 →
      (if i = 0 then 0 else rd [1] (i - 1) * rd (solve [2, 3] [1] [1] [3, 4]) (i - 1))
        + rd [2, 3] i * rd (solve [2, 3] [1] [1] [3, 4]) i
        + (if i = 2 - 1 then 0 else rd [1] i * rd (solve [2, 3] [1] [1] [3, 4]) (i + 1))
        = rd [3, 4] i) ∧
    ((∀ k, k < 2 - 1 → rd [1] k = 0 ∧ rd [1] k = 0) →
      ∀ i, i < 2 → rd (solve [2, 3] [1] [1] [3, 4]) i = rd [3, 4] i / rd [2, 3] i) :=
  solve_correct 2 [2, 3] [1] [1] [3, 4] (by decide) rfl rfl rfl rfl
    (by
      intro i hi
      interval_cases i
      · norm_num [eliminate, elimStep, rd, wr]
      · norm_num [eliminate, elimStep, rd, wr])


/-! ## Loops that fill a vector -/

theorem fill_length (g : Nat → Nat) (f : Nat → ℚ) (m : Nat) (v : List ℚ) :
    ((List.range m).foldl (fun r i => wr r (g i) (f i)) v).length = v.length := by
  induction m with
  | zero => simp
  | succ m ih => simp [List.range_succ, List.foldl_append, length_wr, ih]

/-- A loop `for (i = 0; i < m; ++i) v[o + i] = f(i)`. -/
theorem rd_fill (o : Nat) (f : Nat → ℚ) (m : Nat) (v : List ℚ) (j : Nat) :
    rd ((List.range m).foldl (fun r i => wr r (o + i) (f i)) v) j
      = if o ≤ j ∧ j < o + m ∧ j < v.length then f (j - o) else rd v j := by
  induction m with
  | zero =>
    have : ¬ (o ≤ j ∧ j < o + 0 ∧ j < v.length) := by omega
    rw [if_neg this]
    rfl
  | succ m ih =>
    simp only [List.range_succ, List.foldl_append, List.foldl_cons, List.foldl_nil]
    rw [rd_wr, fill_length, ih]
    by_cases h1 : o + m = j
    · subst h1
      by_cases h2 : o + m < v.length
      · have : o ≤ o + m ∧ o + m < o + (m + 1) ∧ o + m < v.length := ⟨by omega, by omega, h2⟩
        simp [h2, this]
      · have a : ¬ (o ≤ o + m ∧ o + m < o + (m + 1) ∧ o + m < v.length) := by omega
        have b : ¬ (o ≤ o + m ∧ o + m < o + m ∧ o + m < v.length) := by omega
        simp only [h2, and_false, if_false, a, b]
    · have a : (o ≤ j ∧ j < o + (m + 1) ∧ j < v.length) ↔ (o ≤ j ∧ j < o + m ∧ j < v.length) := by
        omega
      simp only [h1, false_and, if_false, a]

/-- A loop `for (i = 0; i < m; ++i) v[i] = f(i)`. -/
theorem rd_fill_zero (f : Nat → ℚ) (m : Nat) (v : List ℚ) (j : Nat) :
    rd ((List.range m).foldl (fun r i => wr r i (f i)) v) j
      = if j < m ∧ j < v.length then f j else rd v j := by
  have h := rd_fill 0 f m v j
  simpa using h

/-! ## The mesh -/

/-- Closed form of the mesh points. -/
theorem rd_mesh (c : Config) (i : Nat) (hi : i ≤ c.N1 + c.N2) :
    rd (mesh c) i = if i < c.N1 then (i : ℚ) * (c.b / c.N1)
      else c.b + ((i - c.N1 : Nat) : ℚ) * ((c.R - c.b) / c.N2) := by
  unfold mesh
  simp only []
  rw [rd_fill, fill_length, length_zeros, rd_fill_zero, length_zeros, rd_zeros]
  simp only [Config.npoints, Config.ninters]
  split_ifs <;> first | rfl | (exfalso; omega)

theorem widths_length (c : Config) (r : List ℚ) : (widths c r).length = c.N1 + c.N2 := by
  simp [widths, fill_length, length_zeros, Config.ninters]

theorem rd_widths (c : Config) (r : List ℚ) (i : Nat) (hi : i < c.N1 + c.N2) :
    rd (widths c r) i = rd r (i + 1) - rd r i := by
  unfold widths
  rw [rd_fill_zero, length_zeros]
  simp [Config.ninters, hi]


theorem rd_mesh_inner (c : Config) (i : Nat) (hi : i < c.N1) :
    rd (mesh c) i = (i : ℚ) * (c.b / c.N1) := by
  rw [rd_mesh c i (by omega), if_pos hi]

theorem rd_mesh_outer (c : Config) (j : Nat) (hj : j ≤ c.N2) :
    rd (mesh c) (c.N1 + j) = c.b + (j : ℚ) * ((c.R - c.b) / c.N2) := by
  rw [rd_mesh c (c.N1 + j) (by omega), if_neg (by omega), Nat.add_sub_cancel_left]

theorem rd_mesh_N1 (c : Config) : rd (mesh c) c.N1 = c.b := by
  have h := rd_mesh_outer c 0 (Nat.zero_le _)
  simpa using h

/-- Consecutive mesh points are strictly increasing. -/
theorem mesh_step_pos (c : Config) (h1 : 1 ≤ c.N1) (h2 : 1 ≤ c.N2) (hb : 0 < c.b)
    (hR : c.b < c.R) (i : Nat) (hi : i < c.N1 + c.N2) :
    rd (mesh c) i < rd (mesh c) (i + 1) := by
  have hN1 : (0 : ℚ) < c.N1 := by exact_mod_cast h1
  have hN2 : (0 : ℚ) < c.N2 := by exact_mod_cast h2
  have hh1 : 0 < c.b / c.N1 := div_pos hb hN1
  have hh2 : 0 < (c.R - c.b) / c.N2 := div_pos (by linarith) hN2
  by_cases hA : i + 1 < c.N1
  · rw [rd_mesh_inner c i (by omega), rd_mesh_inner c (i + 1) hA]
    push_cast
    nlinarith
  · by_cases hB : i + 1 = c.N1
    · rw [rd_mesh_inner c i (by omega), hB, rd_mesh_N1]
      have e : (i : ℚ) = c.N1 - 1 := by
        have : (c.N1 : ℚ) = i + 1 := by exact_mod_cast hB.symm
        linarith
      rw [e]
      have : (c.N1 - 1 : ℚ) * (c.b / c.N1) = c.b - c.b / c.N1 := by
        field_simp
        ring
      rw [this]
      linarith
    · obtain ⟨j, rfl⟩ : ∃ j, i = c.N1 + j := ⟨i - c.N1, by omega⟩
      rw [rd_mesh_outer c j (by omega), Nat.add_assoc, rd_mesh_outer c (j + 1) (by omega)]
      push_cast
      nlinarith

theorem assembleN_zero (c : Config) : assembleN c 0 = System.init c := by
  simp [assembleN]

theorem assembleN_succ (c : Config) (m : Nat) :
    assembleN c (m + 1) = assembleStep c (mesh c) (widths c (mesh c)) (assembleN c m) m := by
  simp [assembleN, List.range_succ, List.foldl_append]

theorem assemble_eq (c : Config) : assemble c = assembleN c (c.N1 + c.N2) := rfl

theorem assembleN_length (c : Config) (m : Nat) :
    (assembleN c m).diag.length = c.N1 + c.N2 + 1 ∧
    (assembleN c m).lower.length = c.N1 + c.N2 ∧
    (assembleN c m).upper.length = c.N1 + c.N2 ∧
    (assembleN c m).rhs.length = c.N1 + c.N2 + 1 := by
  induction m with
  | zero => simp [assembleN_zero, System.init, length_zeros, Config.npoints, Config.ninters]
  | succ m ih =>
    rw [assembleN_succ]
    simp only [assembleStep, length_wr]
    refine ⟨ih.1, ih.2.1, ih.2.2.1, ?_⟩
    split_ifs
    · rw [length_wr, length_wr]; exact ih.2.2.2
    · rw [length_wr]; exact ih.2.2.2

theorem assembleN_lower (c : Config) (m : Nat) (hm : m ≤ c.N1 + c.N2) :
    ∀ j, rd (assembleN c m).lower j = if j < m then - stiff c j else 0 := by
  induction m with
  | zero => intro j; simp [assembleN_zero, System.init, rd_zeros]
  | succ m ih =>
    have hl := (assembleN_length c m).2.1
    have ih1 := ih (by omega)
    intro j
    rw [assembleN_succ]
    simp only [assembleStep, rd_wr, hl, ih1, stiff]
    by_cases hB : m = j
    · subst hB
      split_ifs <;> first | rfl | (exfalso; omega) | (exfalso; simp only [true_and] at *; omega) | ring
    · split_ifs <;> first | rfl | (exfalso; omega)

theorem assembleN_upper (c : Config) (m : Nat) (hm : m ≤ c.N1 + c.N2) :
    ∀ j, rd (assembleN c m).upper j = if j < m then - stiff c j else 0 := by
  induction m with
  | zero => intro j; simp [assembleN_zero, System.init, rd_zeros]
  | succ m ih =>
    have hl := (assembleN_length c m).2.2.1
    have ih1 := ih (by omega)
    intro j
    rw [assembleN_succ]
    simp only [assembleStep, rd_wr, hl, ih1, stiff]
    by_cases hB : m = j
    · subst hB
      split_ifs <;> first | rfl | (exfalso; omega) | (exfalso; simp only [true_and] at *; omega) | ring
    · split_ifs <;> first | rfl | (exfalso; omega)

theorem assembleN_diag (c : Config) (m : Nat) (hm : m ≤ c.N1 + c.N2) :
    ∀ j, rd (assembleN c m).diag j
      = (if 1 ≤ j ∧ j ≤ m then stiff c (j - 1) else 0) + (if j < m then stiff c j else 0) := by
  induction m with
  | zero =>
    intro j
    have a : ¬ (1 ≤ j ∧ j ≤ 0) := by omega
    rw [if_neg a, if_neg (by omega)]
    simp [assembleN_zero, System.init, rd_zeros]
  | succ m ih =>
    have hl := (assembleN_length c m).1
    have ih1 := ih (by omega)
    intro j
    rw [assembleN_succ]
    simp only [assembleStep, rd_wr, length_wr, hl, ih1, stiff]
    by_cases hA : m + 1 = j
    · subst hA
      simp only [Nat.add_sub_cancel]
      split_ifs <;> first | rfl | (exfalso; omega) | (exfalso; simp only [true_and] at *; omega) | ring
    · by_cases hB : m = j
      · subst hB
        split_ifs <;> first | rfl | (exfalso; omega) | (exfalso; simp only [true_and] at *; omega) | ring
      · split_ifs <;> first | rfl | (exfalso; omega)

theorem assembleN_rhs (c : Config) (m : Nat) (hm : m ≤ c.N1 + c.N2) :
    ∀ j, rd (assembleN c m).rhs j = if j < m then load c j else 0 := by
  induction m with
  | zero => intro j; simp [assembleN_zero, System.init, rd_zeros]
  | succ m ih =>
    have hl := (assembleN_length c m).2.2.2
    have ih1 := ih (by omega)
    intro j
    rw [assembleN_succ]
    simp only [assembleStep]
    by_cases h0 : m > 0
    · simp only [if_pos h0, rd_wr, length_wr, hl, ih1, load]
      by_cases hB : m = j
      · subst hB
        split_ifs <;> first | rfl | (exfalso; omega) | (exfalso; simp only [true_and] at *; omega) | ring
      · split_ifs <;> first | rfl | (exfalso; omega)
    · simp only [if_neg h0, rd_wr, length_wr, hl, ih1, load]
      by_cases hB : m = j
      · subst hB
        split_ifs <;> first | rfl | (exfalso; omega) | (exfalso; simp only [true_and] at *; omega) | ring
      · split_ifs <;> first | rfl | (exfalso; omega)


/-! ## The assembled system -/

theorem assemble_length (c : Config) :
    (assemble c).diag.length = c.N1 + c.N2 + 1 ∧
    (assemble c).lower.length = c.N1 + c.N2 ∧
    (assemble c).upper.length = c.N1 + c.N2 ∧
    (assemble c).rhs.length = c.N1 + c.N2 + 1 := by
  rw [assemble_eq]
  exact assembleN_length c _

theorem assembled_length (c : Config) :
    (assembled c).diag.length = c.N1 + c.N2 + 1 ∧
    (assembled c).lower.length = c.N1 + c.N2 ∧
    (assembled c).upper.length = c.N1 + c.N2 ∧
    (assembled c).rhs.length = c.N1 + c.N2 + 1 := by
  simp only [assembled, boundary, length_wr]
  exact assemble_length c

/-- Before the boundary condition: the bands. -/
theorem assemble_lower (c : Config) (j : Nat) (hj : j < c.N1 + c.N2) :
    rd (assemble c).lower j = - stiff c j := by
  rw [assemble_eq, assembleN_lower c _ (Nat.le_refl _) j, if_pos hj]

theorem assemble_upper (c : Config) (j : Nat) (hj : j < c.N1 + c.N2) :
    rd (assemble c).upper j = - stiff c j := by
  rw [assemble_eq, assembleN_upper c _ (Nat.le_refl _) j, if_pos hj]

/-- Before the boundary condition: the diagonal. -/
theorem assemble_diag (c : Config) (j : Nat) :
    rd (assemble c).diag j
      = (if 1 ≤ j ∧ j ≤ c.N1 + c.N2 then stiff c (j - 1) else 0)
        + (if j < c.N1 + c.N2 then stiff c j else 0) := by
  rw [assemble_eq, assembleN_diag c _ (Nat.le_refl _) j]

/-- Before the boundary condition: the right-hand side. -/
theorem assemble_rhs (c : Config) (j : Nat) :
    rd (assemble c).rhs j = if j < c.N1 + c.N2 then load c j else 0 := by
  rw [assemble_eq, assembleN_rhs c _ (Nat.le_refl _) j]

theorem assembled_upper (c : Config) (j : Nat) (hj : j < c.N1 + c.N2) :
    rd (assembled c).upper j = - stiff c j := by
  simp only [assembled, boundary]
  exact assemble_upper c j hj

theorem assembled_lower (c : Config) (j : Nat) (hj : j + 1 < c.N1 + c.N2) :
    rd (assembled c).lower j = - stiff c j := by
  simp only [assembled, boundary, Config.ninters]
  rw [rd_wr_ne _ _ _ _ (by omega)]
  exact assemble_lower c j (by omega)

theorem assembled_lower_last (c : Config) (hn : 1 ≤ c.N1 + c.N2) :
    rd (assembled c).lower (c.N1 + c.N2 - 1) = 0 := by
  simp only [assembled, boundary, Config.ninters]
  rw [rd_wr_same _ _ _ (by rw [(assemble_length c).2.1]; omega)]

theorem assembled_diag (c : Config) (j : Nat) (hj : j < c.N1 + c.N2) :
    rd (assembled c).diag j = (if 1 ≤ j then stiff c (j - 1) else 0) + stiff c j := by
  simp only [assembled, boundary, Config.ninters]
  rw [rd_wr_ne _ _ _ _ (by omega), assemble_diag, if_pos hj]
  by_cases h : 1 ≤ j
  · have a : 1 ≤ j ∧ j ≤ c.N1 + c.N2 := ⟨h, by omega⟩
    rw [if_pos a, if_pos h]
  · have a : ¬ (1 ≤ j ∧ j ≤ c.N1 + c.N2) := fun x => h x.1
    rw [if_neg a, if_neg h]

theorem assembled_diag_last (c : Config) : rd (assembled c).diag (c.N1 + c.N2) = 1 := by
  simp only [assembled, boundary, Config.ninters]
  rw [rd_wr_same _ _ _ (by rw [(assemble_length c).1]; omega)]

theorem assembled_rhs (c : Config) (j : Nat) (hj : j < c.N1 + c.N2) :
    rd (assembled c).rhs j = load c j := by
  simp only [assembled, boundary, Config.ninters]
  rw [rd_wr_ne _ _ _ _ (by omega), assemble_rhs, if_pos hj]

theorem assembled_rhs_last (c : Config) : rd (assembled c).rhs (c.N1 + c.N2) = c.V0 := by
  simp only [assembled, boundary, Config.ninters]
  rw [rd_wr_same _ _ _ (by rw [(assemble_length c).2.2.2]; omega)]

/-- C2. Boundary enforcement: for `N1 ≥ 1` and `N2 ≥ 1` (any `b`, `R`, `p`, `a0`, mode,
`V0`), after the assembly loop and the boundary condition, `diag[ninters] = 1`,
`rhs[ninters] = V0` and `lower[ninters - 1] = 0`. -/
theorem boundary_enforcement (c : Config) (h1 : 1 ≤ c.N1) (h2 : 1 ≤ c.N2) :
    rd (assembled c).diag c.ninters = 1 ∧
    rd (assembled c).rhs c.ninters = c.V0 ∧
    rd (assembled c).lower (c.ninters - 1) = 0 :=
  ⟨assembled_diag_last c, assembled_rhs_last c, assembled_lower_last c (by omega)⟩


theorem boundary_enforcement_witness :
    rd (assembled scenario2).diag scenario2.ninters = 1 ∧
    rd (assembled scenario2).rhs scenario2.ninters = scenario2.V0 ∧
    rd (assembled scenario2).lower (scenario2.ninters - 1) = 0 :=
  boundary_enforcement scenario2 (by decide) (by decide)

/-! ## The permittivity -/

theorem epsilonr_eq (t : Bool) (b R r : ℚ) (left : Bool) :
    epsilonr t b R r left
      = if t = true ∨ r ≤ b - 1e-12 * b ∨ (|r - b| ≤ 1e-12 * b ∧ left = true) then 1.0
        else 8.0 - 6.0 * (r - b) / (R - b) := rfl

theorem epsilonr_trivial (b R r : ℚ) (left : Bool) : epsilonr true b R r left = 1 := by
  rw [epsilonr_eq, if_pos (Or.inl rfl)]
  norm_num

/-- With the left limit, the permittivity is `1` up to and including `r = b`. -/
theorem epsilonr_left_inner (t : Bool) (b R r : ℚ) (hb : 0 < b) (hr : r ≤ b) :
    epsilonr t b R r true = 1 := by
  have h12 : (0 : ℚ) < 1e-12 := by norm_num
  have heps : (0 : ℚ) < 1e-12 * b := mul_pos h12 hb
  have hc : t = true ∨ r ≤ b - 1e-12 * b ∨ (|r - b| ≤ 1e-12 * b ∧ true = true) := by
    by_cases h : r ≤ b - 1e-12 * b
    · exact Or.inr (Or.inl h)
    · refine Or.inr (Or.inr ⟨?_, rfl⟩)
      rw [abs_le]
      constructor <;> linarith
  rw [epsilonr_eq, if_pos hc]
  norm_num

/-- With the right limit, the permittivity follows the outer profile from `r = b` on. -/
theorem epsilonr_right_outer (b R r : ℚ) (hb : 0 < b) (hr : b ≤ r) :
    epsilonr false b R r false = 8 - 6 * (r - b) / (R - b) := by
  have h12 : (0 : ℚ) < 1e-12 := by norm_num
  have heps : (0 : ℚ) < 1e-12 * b := mul_pos h12 hb
  have hc : ¬ (false = true ∨ r ≤ b - 1e-12 * b ∨ (|r - b| ≤ 1e-12 * b ∧ false = true)) := by
    rintro (h | h | h)
    · cases h
    · linarith
    · cases h.2
  rw [epsilonr_eq, if_neg hc]
  norm_num

/-- Within the tolerance `1e-12 * b` of `b`, the left flag alone selects the value. -/
theorem epsilonr_near (b R r : ℚ) (left : Bool) (h1 : b - 1e-12 * b < r)
    (h2 : r ≤ b + 1e-12 * b) :
    epsilonr false b R r left = if left = true then 1.0 else 8.0 - 6.0 * (r - b) / (R - b) := by
  have ha : |r - b| ≤ 1e-12 * b := by
    rw [abs_le]
    constructor <;> linarith
  rw [epsilonr_eq]
  cases left
  · have hc : ¬ (false = true ∨ r ≤ b - 1e-12 * b ∨ (|r - b| ≤ 1e-12 * b ∧ false = true)) := by
      rintro (h | h | h)
      · cases h
      · linarith
      · cases h.2
    rw [if_neg hc]
    rfl
  · rw [if_pos (Or.inr (Or.inr ⟨ha, rfl⟩))]
    rfl

/-- Beyond the tolerance `1e-12 * b` above `b`, the outer profile is returned for
either flag. -/
theorem epsilonr_far_outer (b R r : ℚ) (left : Bool) (hb : 0 < b) (h : b + 1e-12 * b < r) :
    epsilonr false b R r left = 8.0 - 6.0 * (r - b) / (R - b) := by
  have h12 : (0 : ℚ) < 1e-12 := by norm_num
  have heps : (0 : ℚ) < 1e-12 * b := mul_pos h12 hb
  have hc : ¬ (false = true ∨ r ≤ b - 1e-12 * b ∨ (|r - b| ≤ 1e-12 * b ∧ left = true)) := by
    rintro (h' | h' | h')
    · cases h'
    · linarith
    · have := (abs_le.mp h'.1).2
      linarith
  rw [epsilonr_eq, if_neg hc]

/-- At or below `b - 1e-12 * b`, the value is `1.0` for either flag. -/
theorem epsilonr_far_inner (b R r : ℚ) (left : Bool) (h : r ≤ b - 1e-12 * b) :
    epsilonr false b R r left = 1.0 := by
  rw [epsilonr_eq, if_pos (Or.inr (Or.inl h))]

/-- C8 as stated fails, in binary64 and in exact arithmetic alike: with `b = 1`, `R = 2`,
the radius `r = 1 - 1e-13 < b` (in binary64 the `double` `0.9999999999999`) and
`left = false`, the value is not `1.0`. -/
theorem epsilonr_inner_counterexample :
    ((0 : F64) < 1 ∧ (1 : F64) < 2 ∧ (0.9999999999999 : F64) < 1 ∧
      epsilonr64 false 1 2 0.9999999999999 false ≠ 1.0) ∧
    (0 : ℚ) < 1 ∧ (1 : ℚ) < 2 ∧ (1 - 1e-13 : ℚ) < 1 ∧
    epsilonr false 1 2 (1 - 1e-13) false ≠ 1.0 := by
  refine ⟨by decide!, by norm_num, by norm_num, by norm_num, ?_⟩
  rw [epsilonr_near 1 2 (1 - 1e-13) false (by norm_num) (by norm_num)]
  norm_num

/-- The edge of the tolerance band is a rounded number in binary64: at `b = 1`, `R = 2` the
`double` `0.999999999999` lies above `b - 1e-12 * b`, yet the program compares it with the
rounded difference and returns `1.0` for `left = false`. -/
theorem epsilonr64_band_edge :
    (1 - 1e-12 * 1 : ℚ) < (0.999999999999 : F64).toRat ∧ (0.999999999999 : F64) < 1 ∧
    epsilonr64 false 1 2 0.999999999999 false = 1.0 := by
  decide!

/-- C8, amended. In exact arithmetic, in non-trivial mode, for `0 < b < R` and `r < b`: the
value is `1.0` when `left = true` or `r ≤ b - 1e-12 * b`; for `left = false` and
`b - 1e-12 * b < r` it is `8.0 - 6.0 * (r - b) / (R - b)`. -/
theorem epsilonr_inner (b R r : ℚ) (left : Bool) (hb : 0 < b) (_hR : b < R) (hr : r < b) :
    (left = true ∨ r ≤ b - 1e-12 * b → epsilonr false b R r left = 1.0) ∧
    (left = false ∧ b - 1e-12 * b < r →
      epsilonr false b R r left = 8.0 - 6.0 * (r - b) / (R - b)) := by
  have h12 : (0 : ℚ) < 1e-12 := by norm_num
  have heps : (0 : ℚ) < 1e-12 * b := mul_pos h12 hb
  constructor
  · intro h
    by_cases h' : r ≤ b - 1e-12 * b
    · exact epsilonr_far_inner b R r left h'
    · rcases h with h | h
      · subst h
        rw [epsilonr_near b R r true (by linarith) (by linarith)]
        rfl
      · exact absurd h h'
  · rintro ⟨h, h'⟩
    subst h
    rw [epsilonr_near b R r false h' (by linarith)]
    rfl

theorem epsilonr_inner_witness :
    (true = true ∨ (1 / 2 : ℚ) ≤ 1 - 1e-12 * 1 → epsilonr false 1 2 (1 / 2) true = 1.0) ∧
    (true = false ∧ (1 : ℚ) - 1e-12 * 1 < 1 / 2 →
      epsilonr false 1 2 (1 / 2) true = 8.0 - 6.0 * (1 / 2 - 1) / (2 - 1)) :=
  epsilonr_inner 1 2 (1 / 2) true (by norm_num) (by norm_num) (by norm_num)

/-- C9 as stated fails, in binary64 and in exact arithmetic alike: with `b = 1`, `R = 2`,
the radius `r = 1 + 1e-13` in `(b, R]` (in binary64 the `double` `1.0000000000001`) and
`left = true`, the value is `1.0`, not `8.0 - 6.0 * (r - b) / (R - b)`; and in binary64,
with `b = 0.1`, `R = 0.2`, the value at `r = R` for `left = false` is
`1.9999999999999991`, not `2.0`. -/
theorem epsilonr_outer_counterexample :
    ((0 : F64) < 1 ∧ (1 : F64) < 2 ∧ (1 : F64) < 1.0000000000001 ∧
      (1.0000000000001 : F64) ≤ 2 ∧
      epsilonr64 false 1 2 1.0000000000001 true = 1.0 ∧
      epsilonr64 false 1 2 1.0000000000001 true
        ≠ 8.0 - 6.0 * ((1.0000000000001 : F64) - 1) / (2 - 1)) ∧
    ((0 : F64) < 0.1 ∧ (0.1 : F64) < 0.2 ∧
      epsilonr64 false 0.1 0.2 0.2 false = 1.9999999999999991 ∧
      epsilonr64 false 0.1 0.2 0.2 false ≠ 2.0) ∧
    (0 : ℚ) < 1 ∧ (1 : ℚ) < 2 ∧ (1 : ℚ) < 1 + 1e-13 ∧ (1 + 1e-13 : ℚ) ≤ 2 ∧
    epsilonr false 1 2 (1 + 1e-13) true ≠ 8.0 - 6.0 * ((1 + 1e-13) - 1) / (2 - 1) := by
  refine ⟨by decide!, by decide!, by norm_num, by norm_num, by norm_num, by norm_num, ?_⟩
  rw [epsilonr_near 1 2 (1 + 1e-13) true (by norm_num) (by norm_num)]
  norm_num

/-- C9, amended. In exact arithmetic, in non-trivial mode, for `0 < b < R` and `b < r ≤ R`:
the value is `8.0 - 6.0 * (r - b) / (R - b)` when `left = false` or `r > b + 1e-12 * b`; in
particular `epsilon_r(R, left) = 2.0` when `left = false` or `R > b + 1e-12 * b`. -/
theorem epsilonr_outer (b R r : ℚ) (left : Bool) (hb : 0 < b) (hR : b < R) (hr : b < r)
    (_hrR : r ≤ R) :
    (left = false ∨ b + 1e-12 * b < r →
      epsilonr false b R r left = 8.0 - 6.0 * (r - b) / (R - b)) ∧
    (left = false ∨ b + 1e-12 * b < R → epsilonr false b R R left = 2.0) := by
  have h12 : (0 : ℚ) < 1e-12 := by norm_num
  have heps : (0 : ℚ) < 1e-12 * b := mul_pos h12 hb
  have key : ∀ s : ℚ, b < s → (left = false ∨ b + 1e-12 * b < s) →
      epsilonr false b R s left = 8.0 - 6.0 * (s - b) / (R - b) := by
    intro s hs h
    by_cases h' : b + 1e-12 * b < s
    · exact epsilonr_far_outer b R s left hb h'
    · rcases h with h | h
      · subst h
        rw [epsilonr_near b R s false (by linarith) (by linarith)]
        rfl
      · exact absurd h h'
  refine ⟨key r hr, ?_⟩
  intro h
  rw [key R hR h]
  have : R - b ≠ 0 := by
    intro h0
    linarith
  field_simp
  norm_num

theorem epsilonr_outer_witness :
    (false = false ∨ (1 : ℚ) + 1e-12 * 1 < 3 / 2 →
      epsilonr false 1 2 (3 / 2) false = 8.0 - 6.0 * (3 / 2 - 1) / (2 - 1)) ∧
    (false = false ∨ (1 : ℚ) + 1e-12 * 1 < 2 → epsilonr false 1 2 2 false = 2.0) :=
  epsilonr_outer 1 2 (3 / 2) false (by norm_num) (by norm_num) (by norm_num) (by norm_num)


/-! ## Mesh bounds -/

theorem rd_mesh_zero (c : Config) (h1 : 1 ≤ c.N1) : rd (mesh c) 0 = 0 := by
  rw [rd_mesh_inner c 0 (by omega)]
  simp

theorem rd_mesh_last (c : Config) (h2 : 1 ≤ c.N2) : rd (mesh c) (c.N1 + c.N2) = c.R := by
  have hN2 : (c.N2 : ℚ) ≠ 0 := by
    have : (0 : ℚ) < c.N2 := by exact_mod_cast h2
    exact ne_of_gt this
  rw [rd_mesh_outer c c.N2 (Nat.le_refl _)]
  field_simp

theorem mesh_mono (c : Config) (h1 : 1 ≤ c.N1) (h2 : 1 ≤ c.N2) (hb : 0 < c.b)
    (hR : c.b < c.R) (i j : Nat) (hij : i ≤ j) (hj : j ≤ c.N1 + c.N2) :
    rd (mesh c) i ≤ rd (mesh c) j := by
  induction j with
  | zero =>
    have : i = 0 := by omega
    rw [this]
  | succ j ih =>
    by_cases h : i = j + 1
    · rw [h]
    · have := ih (by omega) (by omega)
      have := mesh_step_pos c h1 h2 hb hR j (by omega)
      linarith

theorem mesh_nonneg (c : Config) (h1 : 1 ≤ c.N1) (h2 : 1 ≤ c.N2) (hb : 0 < c.b)
    (hR : c.b < c.R) (i : Nat) (hi : i ≤ c.N1 + c.N2) : 0 ≤ rd (mesh c) i := by
  have := mesh_mono c h1 h2 hb hR 0 i (Nat.zero_le _) hi
  rwa [rd_mesh_zero c h1] at this

theorem mesh_le_b (c : Config) (h1 : 1 ≤ c.N1) (h2 : 1 ≤ c.N2) (hb : 0 < c.b)
    (hR : c.b < c.R) (i : Nat) (hi : i ≤ c.N1) : rd (mesh c) i ≤ c.b := by
  have := mesh_mono c h1 h2 hb hR i c.N1 hi (by omega)
  rwa [rd_mesh_N1] at this

theorem mesh_ge_b (c : Config) (h1 : 1 ≤ c.N1) (h2 : 1 ≤ c.N2) (hb : 0 < c.b)
    (hR : c.b < c.R) (i : Nat) (hi : c.N1 ≤ i) (hi' : i ≤ c.N1 + c.N2) :
    c.b ≤ rd (mesh c) i := by
  have := mesh_mono c h1 h2 hb hR c.N1 i hi hi'
  rwa [rd_mesh_N1] at this

theorem mesh_le_R (c : Config) (h1 : 1 ≤ c.N1) (h2 : 1 ≤ c.N2) (hb : 0 < c.b)
    (hR : c.b < c.R) (i : Nat) (hi : i ≤ c.N1 + c.N2) : rd (mesh c) i ≤ c.R := by
  have := mesh_mono c h1 h2 hb hR i (c.N1 + c.N2) hi (Nat.le_refl _)
  rwa [rd_mesh_last c h2] at this

/-! ## The stiffness contributions -/

/-- With the right limit, the permittivity is at least `1` on `[b, R]`. -/
theorem epsilonr_right_ge_one (t : Bool) (b R r : ℚ) (hb : 0 < b) (hR : b < R)
    (h1 : b ≤ r) (h2 : r ≤ R) : 1 ≤ epsilonr t b R r false := by
  cases t
  · rw [epsilonr_right_outer b R r hb h1]
    have hq : (r - b) / (R - b) ≤ 1 := by
      rw [div_le_one (by linarith)]
      linarith
    have : 6 * (r - b) / (R - b) = 6 * ((r - b) / (R - b)) := by ring
    rw [this]
    linarith
  · rw [epsilonr_trivial]

/-- Inner intervals: both quadratures see the permittivity `1`. -/
theorem stiff_inner (c : Config) (h1 : 1 ≤ c.N1) (h2 : 1 ≤ c.N2) (hb : 0 < c.b)
    (hR : c.b < c.R) (k : Nat) (hk : k < c.N1) :
    stiff c k
      = (rd (mesh c) k + rd (mesh c) (k + 1)) / (2 * (rd (mesh c) (k + 1) - rd (mesh c) k)) := by
  have ha := mesh_le_b c h1 h2 hb hR k (by omega)
  have hc := mesh_le_b c h1 h2 hb hR (k + 1) (by omega)
  have hm : (rd (mesh c) k + rd (mesh c) (k + 1)) / 2 ≤ c.b := by linarith
  unfold stiff integral
  simp only []
  rw [if_pos hk, epsilonr_left_inner _ _ _ _ hb ha, epsilonr_left_inner _ _ _ _ hb hc,
    epsilonr_left_inner _ _ _ _ hb hm, rd_widths c _ k (by omega)]
  ring

/-- Every stiffness contribution is positive under a valid configuration. -/
theorem stiff_pos (c : Config) (h1 : 1 ≤ c.N1) (h2 : 1 ≤ c.N2) (hb : 0 < c.b)
    (hR : c.b < c.R) (hp0 : 0 ≤ c.p) (hp1 : c.p ≤ 1) (k : Nat) (hk : k < c.N1 + c.N2) :
    0 < stiff c k := by
  have hstep := mesh_step_pos c h1 h2 hb hR k hk
  have hden : 0 < 2 * (rd (mesh c) (k + 1) - rd (mesh c) k) := by linarith
  have hr0 := mesh_nonneg c h1 h2 hb hR k (by omega)
  by_cases hin : k < c.N1
  · rw [stiff_inner c h1 h2 hb hR k hin]
    exact div_pos (by linarith) hden
  · have ha := mesh_ge_b c h1 h2 hb hR k (by omega) (by omega)
    have hc := mesh_ge_b c h1 h2 hb hR (k + 1) (by omega) (by omega)
    have ha' := mesh_le_R c h1 h2 hb hR k (by omega)
    have hc' := mesh_le_R c h1 h2 hb hR (k + 1) (by omega)
    have e1 := epsilonr_right_ge_one c.trivial c.b c.R _ hb hR ha ha'
    have e2 := epsilonr_right_ge_one c.trivial c.b c.R _ hb hR hc hc'
    have e3 := epsilonr_right_ge_one c.trivial c.b c.R
      ((rd (mesh c) k + rd (mesh c) (k + 1)) / 2) hb hR (by linarith) (by linarith)
    unfold stiff integral
    simp only []
    rw [if_neg hin, rd_widths c _ k (by omega)]
    apply div_pos _ hden
    have A : 0 < epsilonr c.trivial c.b c.R (rd (mesh c) k) false * rd (mesh c) k
        + epsilonr c.trivial c.b c.R (rd (mesh c) (k + 1)) false * rd (mesh c) (k + 1) := by
      have : 0 < epsilonr c.trivial c.b c.R (rd (mesh c) k) false * rd (mesh c) k :=
        mul_pos (by linarith) (by linarith)
      have : 0 < epsilonr c.trivial c.b c.R (rd (mesh c) (k + 1)) false * rd (mesh c) (k + 1) :=
        mul_pos (by linarith) (by linarith)
      linarith
    have B : 0 < epsilonr c.trivial c.b c.R ((rd (mesh c) k + rd (mesh c) (k + 1)) / 2) false
        * (rd (mesh c) k + rd (mesh c) (k + 1)) :=
      mul_pos (by linarith) (by linarith)
    by_cases hp : c.p = 0
    · rw [hp]
      linarith
    · have hp' : 0 < c.p := lt_of_le_of_ne hp0 (Ne.symm hp)
      have := mul_pos hp' A
      have := mul_nonneg (sub_nonneg.mpr hp1) (le_of_lt B)
      linarith


/-! ## Forward elimination of the assembled system -/

theorem eliminated_diag (c : Config) (hs : ∀ j, j < c.N1 + c.N2 → stiff c j ≠ 0) :
    ∀ i, i < c.N1 + c.N2 → rd (eliminated c).1 i = stiff c i := by
  have hlen := assembled_length c
  intro i
  induction i with
  | zero =>
    intro h
    unfold eliminated
    rw [(eliminate_zero_row _ _ _ _).1, assembled_diag c 0 h]
    simp
  | succ i ih =>
    intro h
    have ih' := ih (by omega)
    unfold eliminated at ih' ⊢
    have hrec := (eliminate_rec (assembled c).diag (assembled c).lower (assembled c).upper
      (assembled c).rhs (by rw [hlen.1, hlen.2.2.2]) (i + 1) (by omega)
      (by rw [hlen.1]; omega)).1
    rw [hrec, Nat.add_sub_cancel, ih', assembled_diag c (i + 1) h, if_pos (by omega),
      Nat.add_sub_cancel, assembled_lower c i h, assembled_upper c i (by omega)]
    have := hs i (by omega)
    field_simp

theorem eliminated_rhs_zero (c : Config) (hn : 1 ≤ c.N1 + c.N2) :
    rd (eliminated c).2 0 = load c 0 := by
  unfold eliminated
  rw [(eliminate_zero_row _ _ _ _).2, assembled_rhs c 0 (by omega)]

theorem eliminated_rhs_succ (c : Config) (hs : ∀ j, j < c.N1 + c.N2 → stiff c j ≠ 0)
    (i : Nat) (h : i + 1 < c.N1 + c.N2) :
    rd (eliminated c).2 (i + 1) = load c (i + 1) + rd (eliminated c).2 i := by
  have hlen := assembled_length c
  have hd := eliminated_diag c hs i (by omega)
  unfold eliminated at hd ⊢
  have hrec := (eliminate_rec (assembled c).diag (assembled c).lower (assembled c).upper
    (assembled c).rhs (by rw [hlen.1, hlen.2.2.2]) (i + 1) (by omega)
    (by rw [hlen.1]; omega)).2
  rw [hrec, Nat.add_sub_cancel, hd, assembled_rhs c (i + 1) h, assembled_lower c i h]
  have := hs i (by omega)
  field_simp

theorem stiff_ne_zero (c : Config) (h1 : 1 ≤ c.N1) (h2 : 1 ≤ c.N2) (hb : 0 < c.b)
    (hR : c.b < c.R) (hp0 : 0 ≤ c.p) (hp1 : c.p ≤ 1) :
    ∀ j, j < c.N1 + c.N2 → stiff c j ≠ 0 :=
  fun j hj => ne_of_gt (stiff_pos c h1 h2 hb hR hp0 hp1 j hj)

theorem phi_eq (c : Config) :
    phi c = solve (assembled c).diag (assembled c).lower (assembled c).upper (assembled c).rhs :=
  rfl

/-- The flux relation between consecutive values of the potential. -/
theorem phi_flux (c : Config) (hs : ∀ j, j < c.N1 + c.N2 → stiff c j ≠ 0)
    (i : Nat) (hi : i < c.N1 + c.N2) :
    stiff c i * (rd (phi c) i - rd (phi c) (i + 1)) = rd (eliminated c).2 i := by
  have hlen := (assembled_length c).1
  have hd := eliminated_diag c hs i hi
  have hrow := solve_upper_row (assembled c).diag (assembled c).lower (assembled c).upper
    (assembled c).rhs i (by rw [hlen]; omega)
    (by
      unfold eliminated at hd
      rw [hd]
      exact hs i hi)
  unfold eliminated at hd ⊢
  rw [if_neg (by rw [hlen]; omega), hd, assembled_upper c i hi] at hrow
  rw [phi_eq, ← hrow]
  ring


/-! ## Trivial mode: the loads are non-negative -/

theorem rho_lib_trivial (b a0 r : ℚ) : rho_lib true b a0 r = 1 := by
  unfold rho_lib
  rw [if_pos rfl]
  norm_num

theorem load_nonneg_trivial (c : Config) (ht : c.trivial = true) (h1 : 1 ≤ c.N1)
    (h2 : 1 ≤ c.N2) (hb : 0 < c.b) (hR : c.b < c.R) (hp0 : 0 ≤ c.p) (hp1 : c.p ≤ 1)
    (k : Nat) (hk : k < c.N1 + c.N2) : 0 ≤ load c k := by
  have hq : 0 ≤ 1 - c.p := by linarith
  have hr0 := mesh_nonneg c h1 h2 hb hR k (by omega)
  have hr1 := mesh_nonneg c h1 h2 hb hR (k + 1) (by omega)
  have hstep := mesh_step_pos c h1 h2 hb hR k hk
  have hR' : 0 ≤ loadRight c (mesh c) k := by
    unfold loadRight
    simp only [ht, rho_lib_trivial]
    apply mul_nonneg _ (by linarith)
    have a : 0 ≤ c.p * 1 * 0.5 * rd (mesh c) k := by
      have : (0 : ℚ) ≤ 0.5 := by norm_num
      positivity
    have b : 0 ≤ (1 - c.p) * 1 * (rd (mesh c) k + rd (mesh c) (k + 1)) / 4 := by
      have : 0 ≤ rd (mesh c) k + rd (mesh c) (k + 1) := by linarith
      positivity
    linarith
  unfold load
  by_cases h0 : k > 0
  · rw [if_pos h0]
    have hrm := mesh_nonneg c h1 h2 hb hR (k - 1) (by omega)
    have hstep' := mesh_step_pos c h1 h2 hb hR (k - 1) (by omega)
    rw [Nat.sub_add_cancel (by omega)] at hstep'
    have hL : 0 ≤ loadLeft c (mesh c) k := by
      unfold loadLeft
      simp only [ht, rho_lib_trivial]
      apply mul_nonneg _ (by linarith)
      have a : 0 ≤ c.p * 1 * 0.5 * rd (mesh c) k := by
        have : (0 : ℚ) ≤ 0.5 := by norm_num
        positivity
      have b : 0 ≤ (1 - c.p) * 1 * (rd (mesh c) k + rd (mesh c) (k - 1)) / 4 := by
        have : 0 ≤ rd (mesh c) k + rd (mesh c) (k - 1) := by linarith
        positivity
      linarith
    linarith
  · rw [if_neg h0]
    linarith

theorem eliminated_rhs_nonneg_trivial (c : Config) (ht : c.trivial = true) (h1 : 1 ≤ c.N1)
    (h2 : 1 ≤ c.N2) (hb : 0 < c.b) (hR : c.b < c.R) (hp0 : 0 ≤ c.p) (hp1 : c.p ≤ 1) :
    ∀ i, i < c.N1 + c.N2 → 0 ≤ rd (eliminated c).2 i := by
  have hs := stiff_ne_zero c h1 h2 hb hR hp0 hp1
  intro i
  induction i with
  | zero =>
    intro h
    rw [eliminated_rhs_zero c (by omega)]
    exact load_nonneg_trivial c ht h1 h2 hb hR hp0 hp1 0 h
  | succ i ih =>
    intro h
    rw [eliminated_rhs_succ c hs i h]
    have := ih (by omega)
    have := load_nonneg_trivial c ht h1 h2 hb hR hp0 hp1 (i + 1) h
    linarith

/-! ## The assembled system and the potential: main results -/

/-- C10, amended. In exact arithmetic, in trivial mode: for `trivial = true` and a valid
configuration (`N1 ≥ 1`, `N2 ≥ 1`, `0 < b < R`, `0 ≤ p ≤ 1`, any `V0`),
`phi[i] ≥ phi[i+1]` for every `i` in `0..ninters-1`. -/
theorem phi_monotone_trivial (c : Config) (ht : c.trivial = true) (h1 : 1 ≤ c.N1)
    (h2 : 1 ≤ c.N2) (hb : 0 < c.b) (hR : c.b < c.R) (hp0 : 0 ≤ c.p) (hp1 : c.p ≤ 1) :
    ∀ i, i < c.ninters → rd (phi c) i ≥ rd (phi c) (i + 1) := by
  intro i hi
  have hs := stiff_ne_zero c h1 h2 hb hR hp0 hp1
  have hflux := phi_flux c hs i hi
  have hnn := eliminated_rhs_nonneg_trivial c ht h1 h2 hb hR hp0 hp1 i hi
  have hpos := stiff_pos c h1 h2 hb hR hp0 hp1 i hi
  rw [← hflux] at hnn
  have := nonneg_of_mul_nonneg_right hnn hpos
  linarith

theorem phi_monotone_trivial_witness :
    rd (phi scenario1) 0 ≥ rd (phi scenario1) 1 ∧ rd (phi scenario1) 1 ≥ rd (phi scenario1) 2 ∧
    rd (phi scenario1) 2 ≥ rd (phi scenario1) 3 ∧ rd (phi scenario1) 3 ≥ rd (phi scenario1) 4 :=
  ⟨phi_monotone_trivial scenario1 rfl (by decide) (by decide) (by norm_num [scenario1])
      (by norm_num [scenario1]) (by norm_num [scenario1]) (by norm_num [scenario1]) 0 (by decide),
    phi_monotone_trivial scenario1 rfl (by decide) (by decide) (by norm_num [scenario1])
      (by norm_num [scenario1]) (by norm_num [scenario1]) (by norm_num [scenario1]) 1 (by decide),
    phi_monotone_trivial scenario1 rfl (by decide) (by decide) (by norm_num [scenario1])
      (by norm_num [scenario1]) (by norm_num [scenario1]) (by norm_num [scenario1]) 2 (by decide),
    phi_monotone_trivial scenario1 rfl (by decide) (by decide) (by norm_num [scenario1])
      (by norm_num [scenario1]) (by norm_num [scenario1]) (by norm_num [scenario1]) 3 (by decide)⟩


/-! ## Uniform sub-meshes and the inner stiffness -/

/-- The inner closed form also gives the point of index `N1`. -/
theorem rd_mesh_inner_le (c : Config) (h1 : 1 ≤ c.N1) (i : Nat) (hi : i ≤ c.N1) :
    rd (mesh c) i = (i : ℚ) * (c.b / c.N1) := by
  by_cases h : i < c.N1
  · exact rd_mesh_inner c i h
  · have e : i = c.N1 := by omega
    have hN1 : (c.N1 : ℚ) ≠ 0 := by
      have : (0 : ℚ) < c.N1 := by exact_mod_cast h1
      exact ne_of_gt this
    rw [e, rd_mesh_N1]
    field_simp

theorem widths_inner (c : Config) (h1 : 1 ≤ c.N1) (k : Nat) (hk : k < c.N1) :
    rd (widths c (mesh c)) k = c.b / c.N1 := by
  rw [rd_widths c _ k (by omega), rd_mesh_inner_le c h1 k (by omega),
    rd_mesh_inner_le c h1 (k + 1) (by omega)]
  push_cast
  ring

theorem widths_outer (c : Config) (k : Nat) (hk : c.N1 ≤ k) (hk' : k < c.N1 + c.N2) :
    rd (widths c (mesh c)) k = (c.R - c.b) / c.N2 := by
  obtain ⟨j, rfl⟩ : ∃ j, k = c.N1 + j := ⟨k - c.N1, by omega⟩
  rw [rd_widths c _ _ hk', Nat.add_assoc, rd_mesh_outer c j (by omega),
    rd_mesh_outer c (j + 1) (by omega)]
  push_cast
  ring

/-- C13. Uniform sub-meshes: for `N1 ≥ 1`, `N2 ≥ 1` and `0 < b < R` (exact arithmetic),
`r[0] = 0`, `r[N1+N2] = R`, every inner width `h[k]`, `k < N1`, is `b / N1` and every outer
width `h[k]`, `N1 ≤ k < N1 + N2`, is `(R - b) / N2`. -/
theorem uniform_submeshes (c : Config) (h1 : 1 ≤ c.N1) (h2 : 1 ≤ c.N2) (_hb : 0 < c.b)
    (_hR : c.b < c.R) :
    rd (mesh c) 0 = 0 ∧
    rd (mesh c) (c.N1 + c.N2) = c.R ∧
    (∀ k, k < c.N1 → rd (widths c (mesh c)) k = c.b / c.N1) ∧
    (∀ k, c.N1 ≤ k → k < c.N1 + c.N2 → rd (widths c (mesh c)) k = (c.R - c.b) / c.N2) :=
  ⟨rd_mesh_zero c h1, rd_mesh_last c h2, widths_inner c h1, widths_outer c⟩

theorem uniform_submeshes_witness :
    rd (mesh scenario3) 0 = 0 ∧
    rd (mesh scenario3) (scenario3.N1 + scenario3.N2) = scenario3.R ∧
    (∀ k, k < scenario3.N1 → rd (widths scenario3 (mesh scenario3)) k
      = scenario3.b / scenario3.N1) ∧
    (∀ k, scenario3.N1 ≤ k → k < scenario3.N1 + scenario3.N2 →
      rd (widths scenario3 (mesh scenario3)) k
        = (scenario3.R - scenario3.b) / scenario3.N2) :=
  uniform_submeshes scenario3 (by decide) (by decide) (by norm_num [scenario3])
    (by norm_num [scenario3])

/-- C19, amended. In exact arithmetic, closed form of the inner stiffness contribution: for
`N1 ≥ 1`, `N2 ≥ 1`, `0 < b < R`, every `p`, either mode and every inner interval `k < N1`,
the value of `integral` is `(r[k] + r[k+1]) / (2 * h[k]) = k + 1/2`. -/
theorem stiff_inner_closed_form (c : Config) (h1 : 1 ≤ c.N1) (h2 : 1 ≤ c.N2) (hb : 0 < c.b)
    (hR : c.b < c.R) (k : Nat) (hk : k < c.N1) :
    integral c (mesh c) (widths c (mesh c)) k
      = (rd (mesh c) k + rd (mesh c) (k + 1)) / (2 * rd (widths c (mesh c)) k) ∧
    integral c (mesh c) (widths c (mesh c)) k = (k : ℚ) + 1 / 2 := by
  have hs := stiff_inner c h1 h2 hb hR k hk
  unfold stiff at hs
  have hw := rd_widths c (mesh c) k (by omega)
  have hN1 : (c.N1 : ℚ) ≠ 0 := by
    have : (0 : ℚ) < c.N1 := by exact_mod_cast h1
    exact ne_of_gt this
  have hb' : c.b ≠ 0 := ne_of_gt hb
  refine ⟨by rw [hs, hw], ?_⟩
  rw [hs, rd_mesh_inner_le c h1 k (by omega), rd_mesh_inner_le c h1 (k + 1) (by omega)]
  have hh : c.b / c.N1 ≠ 0 := div_ne_zero hb' hN1
  generalize c.b / (c.N1 : ℚ) = w at hh ⊢
  push_cast
  have e : 2 * (((k : ℚ) + 1) * w - (k : ℚ) * w) = 2 * w := by ring
  rw [e]
  field_simp
  ring

theorem stiff_inner_closed_form_witness :
    integral scenario3 (mesh scenario3) (widths scenario3 (mesh scenario3)) 2
      = (rd (mesh scenario3) 2 + rd (mesh scenario3) (2 + 1))
          / (2 * rd (widths scenario3 (mesh scenario3)) 2) ∧
    integral scenario3 (mesh scenario3) (widths scenario3 (mesh scenario3)) 2
      = ((2 : Nat) : ℚ) + 1 / 2 :=
  stiff_inner_closed_form scenario3 (by decide) (by decide) (by norm_num [scenario3])
    (by norm_num [scenario3]) 2 (by decide)

/-! ## The profiles -/

/-- C15. Charge confined to the core: in non-trivial mode, for `b > 0` and any `a0`,
`rho_lib(r) = 0` for `r > b`, `rho_lib(b) = 0`, `rho_lib(r) = a0 * (1 - (r/b)^2)` for
`r ≤ b`, and `rho_lib(0) = a0`. -/
theorem rho_lib_core (b a0 : ℚ) (hb : 0 < b) :
    (∀ r, b < r → rho_lib false b a0 r = 0) ∧
    rho_lib false b a0 b = 0 ∧
    (∀ r, r ≤ b → rho_lib false b a0 r = a0 * (1 - (r / b) ^ 2)) ∧
    rho_lib false b a0 0 = a0 := by
  have hin : ∀ r, r ≤ b → rho_lib false b a0 r = a0 * (1 - (r / b) ^ 2) := by
    intro r hr
    unfold rho_lib
    rw [if_neg (by decide), if_neg (not_lt.mpr hr)]
    norm_num
  refine ⟨?_, ?_, hin, ?_⟩
  · intro r hr
    unfold rho_lib
    rw [if_neg (by decide), if_pos hr]
    norm_num
  · rw [hin b (le_refl b), div_self (ne_of_gt hb)]
    norm_num
  · rw [hin 0 (le_of_lt hb)]
    norm_num

theorem rho_lib_core_witness :
    (∀ r, (2 : ℚ) < r → rho_lib false 2 7 r = 0) ∧
    rho_lib false 2 7 2 = 0 ∧
    (∀ r, r ≤ (2 : ℚ) → rho_lib false 2 7 r = 7 * (1 - (r / 2) ^ 2)) ∧
    rho_lib false 2 7 0 = 7 :=
  rho_lib_core 2 7 (by norm_num)

/-- C16. Trivial-mode override: when `trivial = true`, for every `r`, `left`, `b`, `R` and
`a0`, `epsilon_r(r, left) = 1.0` and `rho_lib(r) = 1.0`. -/
theorem trivial_override (b R a0 r : ℚ) (left : Bool) :
    epsilonr true b R r left = 1.0 ∧ rho_lib true b a0 r = 1.0 := by
  constructor
  · rw [epsilonr_trivial]
    norm_num
  · rw [rho_lib_trivial]
    norm_num


/-! ## The diagonal and the load vector -/

/-- C17, amended. In exact arithmetic, for a valid configuration, with
`m_j = (r[j] + r[j+1]) / 2`, the right-hand side before the boundary condition satisfies,
for `0 < k < ninters`,
`rhs[k] = p*rho_lib(r[k])*r[k]*(h[k-1]+h[k])/2
  + (1-p)*(rho_lib(m_{k-1})*m_{k-1}*h[k-1] + rho_lib(m_k)*m_k*h[k])/2`, and
`rhs[0] = (1-p)*rho_lib(m_0)*m_0*h[0]/2`. -/
theorem load_vector (c : Config) (h1 : 1 ≤ c.N1) (_h2 : 1 ≤ c.N2) (_hb : 0 < c.b)
    (_hR : c.b < c.R) (_hp0 : 0 ≤ c.p) (_hp1 : c.p ≤ 1) :
    (∀ k, 0 < k → k < c.ninters →
      rd (assemble c).rhs k
        = c.p * rho_lib c.trivial c.b c.a0 (rd (mesh c) k) * rd (mesh c) k
            * (rd (widths c (mesh c)) (k - 1) + rd (widths c (mesh c)) k) / 2
          + (1 - c.p)
            * (rho_lib c.trivial c.b c.a0 ((rd (mesh c) (k - 1) + rd (mesh c) k) / 2)
                * ((rd (mesh c) (k - 1) + rd (mesh c) k) / 2) * rd (widths c (mesh c)) (k - 1)
              + rho_lib c.trivial c.b c.a0 ((rd (mesh c) k + rd (mesh c) (k + 1)) / 2)
                * ((rd (mesh c) k + rd (mesh c) (k + 1)) / 2) * rd (widths c (mesh c)) k) / 2) ∧
    rd (assemble c).rhs 0
      = (1 - c.p) * rho_lib c.trivial c.b c.a0 ((rd (mesh c) 0 + rd (mesh c) 1) / 2)
          * ((rd (mesh c) 0 + rd (mesh c) 1) / 2) * rd (widths c (mesh c)) 0 / 2 := by
  constructor
  · intro k hk0 hk
    unfold Config.ninters at hk
    obtain ⟨j, rfl⟩ : ∃ j, k = j + 1 := ⟨k - 1, by omega⟩
    rw [assemble_rhs, if_pos hk, rd_widths c _ (j + 1) hk, Nat.add_sub_cancel,
      rd_widths c _ j (by omega)]
    unfold load loadRight loadLeft
    rw [if_pos (by omega), Nat.add_sub_cancel,
      add_comm (rd (mesh c) (j + 1)) (rd (mesh c) j)]
    norm_num
    ring
  · rw [assemble_rhs, if_pos (by omega), rd_widths c _ 0 (by omega)]
    unfold load loadRight
    rw [if_neg (by omega), rd_mesh_zero c h1]
    norm_num
    ring

theorem load_vector_witness :
    (∀ k, 0 < k → k < scenario2.ninters →
      rd (assemble scenario2).rhs k
        = scenario2.p * rho_lib scenario2.trivial scenario2.b scenario2.a0 (rd (mesh scenario2) k)
            * rd (mesh scenario2) k
            * (rd (widths scenario2 (mesh scenario2)) (k - 1)
              + rd (widths scenario2 (mesh scenario2)) k) / 2
          + (1 - scenario2.p)
            * (rho_lib scenario2.trivial scenario2.b scenario2.a0
                  ((rd (mesh scenario2) (k - 1) + rd (mesh scenario2) k) / 2)
                * ((rd (mesh scenario2) (k - 1) + rd (mesh scenario2) k) / 2)
                * rd (widths scenario2 (mesh scenario2)) (k - 1)
              + rho_lib scenario2.trivial scenario2.b scenario2.a0
                  ((rd (mesh scenario2) k + rd (mesh scenario2) (k + 1)) / 2)
                * ((rd (mesh scenario2) k + rd (mesh scenario2) (k + 1)) / 2)
                * rd (widths scenario2 (mesh scenario2)) k) / 2) ∧
    rd (assemble scenario2).rhs 0
      = (1 - scenario2.p)
          * rho_lib scenario2.trivial scenario2.b scenario2.a0
              ((rd (mesh scenario2) 0 + rd (mesh scenario2) 1) / 2)
          * ((rd (mesh scenario2) 0 + rd (mesh scenario2) 1) / 2)
          * rd (widths scenario2 (mesh scenario2)) 0 / 2 :=
  load_vector scenario2 (by decide) (by decide) (by norm_num [scenario2])
    (by norm_num [scenario2]) (by norm_num [scenario2]) (by norm_num [scenario2])


/-! ## The loop over the intervals: `rmid`, `Er`, `Dr` -/

theorem fieldsN_zero (c : Config) :
    fieldsN c 0 = { rmid := zeros c.ninters, Er := zeros c.ninters, Dr := zeros c.ninters } := by
  simp [fieldsN]

theorem fieldsN_succ (c : Config) (m : Nat) :
    fieldsN c (m + 1) = fieldStep c (mesh c) (widths c (mesh c)) (phi c) (fieldsN c m) m := by
  simp [fieldsN, List.range_succ, List.foldl_append]

theorem fields_eq (c : Config) : fields c = fieldsN c (c.N1 + c.N2) := rfl

theorem fieldsN_length (c : Config) (m : Nat) :
    (fieldsN c m).rmid.length = c.N1 + c.N2 ∧
    (fieldsN c m).Er.length = c.N1 + c.N2 ∧
    (fieldsN c m).Dr.length = c.N1 + c.N2 := by
  induction m with
  | zero => simp [fieldsN_zero, length_zeros, Config.ninters]
  | succ m ih =>
    rw [fieldsN_succ]
    simp only [fieldStep, length_wr]
    exact ih

theorem fieldsN_rmid (c : Config) (m : Nat) (hm : m ≤ c.N1 + c.N2) :
    ∀ j, rd (fieldsN c m).rmid j
      = if j < m then 0.5 * rd (mesh c) j + 0.5 * rd (mesh c) (j + 1) else 0 := by
  induction m with
  | zero => intro j; simp [fieldsN_zero, rd_zeros]
  | succ m ih =>
    have hl := (fieldsN_length c m).1
    have ih1 := ih (by omega)
    intro j
    rw [fieldsN_succ]
    simp only [fieldStep, rd_wr, hl, ih1]
    by_cases hB : m = j
    · subst hB
      split_ifs <;> first | rfl | (exfalso; omega)
    · split_ifs <;> first | rfl | (exfalso; omega)

theorem fieldsN_Er (c : Config) (m : Nat) (hm : m ≤ c.N1 + c.N2) :
    ∀ j, rd (fieldsN c m).Er j
      = if j < m then (rd (phi c) j - rd (phi c) (j + 1)) / rd (widths c (mesh c)) j
        else 0 := by
  induction m with
  | zero => intro j; simp [fieldsN_zero, rd_zeros]
  | succ m ih =>
    have hl := (fieldsN_length c m).2.1
    have ih1 := ih (by omega)
    intro j
    rw [fieldsN_succ]
    simp only [fieldStep, rd_wr, hl, ih1]
    by_cases hB : m = j
    · subst hB
      split_ifs <;> first | rfl | (exfalso; omega)
    · split_ifs <;> first | rfl | (exfalso; omega)

theorem fields_rmid (c : Config) (i : Nat) (hi : i < c.N1 + c.N2) :
    rd (fields c).rmid i = 0.5 * rd (mesh c) i + 0.5 * rd (mesh c) (i + 1) := by
  rw [fields_eq, fieldsN_rmid c _ (Nat.le_refl _) i, if_pos hi]

theorem fields_Er (c : Config) (i : Nat) (hi : i < c.N1 + c.N2) :
    rd (fields c).Er i = (rd (phi c) i - rd (phi c) (i + 1)) / rd (widths c (mesh c)) i := by
  rw [fields_eq, fieldsN_Er c _ (Nat.le_refl _) i, if_pos hi]

/-- The eliminated right-hand side is the cumulative load. -/
theorem eliminated_rhs_sum (c : Config) (hs : ∀ j, j < c.N1 + c.N2 → stiff c j ≠ 0) :
    ∀ k, k < c.N1 + c.N2 →
      rd (eliminated c).2 k = ∑ j in Finset.range (k + 1), rd (assemble c).rhs j := by
  intro k
  induction k with
  | zero =>
    intro h
    rw [eliminated_rhs_zero c (by omega), Finset.sum_range_one, assemble_rhs, if_pos h]
  | succ k ih =>
    intro h
    rw [eliminated_rhs_succ c hs k h, Finset.sum_range_succ _ (k + 1), ih (by omega),
      assemble_rhs, if_pos h]
    ring

/-- C18, amended. In exact arithmetic, discrete flux conservation: for a valid configuration
(`N1 ≥ 1`, `N2 ≥ 1`, `0 < b < R`, `0 ≤ p ≤ 1`) and every interval `k < ninters`,
`integral_k * (phi[k] - phi[k+1]) = rhs[0] + ... + rhs[k]` with the assembled loads `rhs`,
and equivalently `integral_k * h[k] * Er[k]` equals the same sum. -/
theorem flux_conservation (c : Config) (h1 : 1 ≤ c.N1) (h2 : 1 ≤ c.N2) (hb : 0 < c.b)
    (hR : c.b < c.R) (hp0 : 0 ≤ c.p) (hp1 : c.p ≤ 1) (k : Nat) (hk : k < c.ninters) :
    integral c (mesh c) (widths c (mesh c)) k * (rd (phi c) k - rd (phi c) (k + 1))
      = ∑ j in Finset.range (k + 1), rd (assemble c).rhs j ∧
    integral c (mesh c) (widths c (mesh c)) k * rd (widths c (mesh c)) k * rd (fields c).Er k
      = ∑ j in Finset.range (k + 1), rd (assemble c).rhs j := by
  unfold Config.ninters at hk
  have hs := stiff_ne_zero c h1 h2 hb hR hp0 hp1
  have hflux := phi_flux c hs k hk
  rw [eliminated_rhs_sum c hs k hk] at hflux
  unfold stiff at hflux
  refine ⟨hflux, ?_⟩
  have hstep := mesh_step_pos c h1 h2 hb hR k hk
  have hw : rd (widths c (mesh c)) k ≠ 0 := by
    rw [rd_widths c _ k hk]
    intro h0
    linarith
  rw [← hflux, fields_Er c k hk]
  field_simp
  ring

theorem flux_conservation_witness :
    integral scenario3 (mesh scenario3) (widths scenario3 (mesh scenario3)) 4
        * (rd (phi scenario3) 4 - rd (phi scenario3) (4 + 1))
      = ∑ j in Finset.range (4 + 1), rd (assemble scenario3).rhs j ∧
    integral scenario3 (mesh scenario3) (widths scenario3 (mesh scenario3)) 4
        * rd (widths scenario3 (mesh scenario3)) 4 * rd (fields scenario3).Er 4
      = ∑ j in Finset.range (4 + 1), rd (assemble scenario3).rhs j :=
  flux_conservation scenario3 (by decide) (by decide) (by norm_num [scenario3])
    (by norm_num [scenario3]) (by norm_num [scenario3]) (by norm_num [scenario3]) 4
    (by decide)


/-! ## The permittivity used for the displacement field -/

/-- The `int` range matters in the statement above: in exact arithmetic, with
`N1 = 10^12` (not an `int` value), `b = 1`, `R = 2`, the midpoint of the last inner
interval is `1 - 5e-13`, within the tolerance of `b`, and the flag changes the value. -/
theorem flag_matters_beyond_int :
    epsilonr beyondInt.trivial beyondInt.b beyondInt.R
        (rd (fields beyondInt).rmid 999999999999) false
      ≠ epsilonr beyondInt.trivial beyondInt.b beyondInt.R
          (rd (fields beyondInt).rmid 999999999999)
          (decide (rd (fields beyondInt).rmid 999999999999 < beyondInt.b)) := by
  have hN : beyondInt.N1 = 1000000000000 := rfl
  have hr : rd (fields beyondInt).rmid 999999999999 = 1 - 5e-13 := by
    rw [fields_rmid beyondInt 999999999999 (by rw [hN]; omega),
      rd_mesh_inner_le beyondInt (by rw [hN]; omega) 999999999999 (by rw [hN]; omega),
      rd_mesh_inner_le beyondInt (by rw [hN]; omega) (999999999999 + 1) (by rw [hN])]
    norm_num [beyondInt]
  have hlt : (1 - 5e-13 : ℚ) < 1 := by norm_num
  have ht : beyondInt.trivial = false := rfl
  have hb : beyondInt.b = 1 := rfl
  have hR : beyondInt.R = 2 := rfl
  rw [hr, ht, hb, hR, decide_eq_true hlt,
    epsilonr_near 1 2 (1 - 5e-13) false (by norm_num) (by norm_num),
    epsilonr_near 1 2 (1 - 5e-13) true (by norm_num) (by norm_num)]
  norm_num


/-! ## The loop over the midpoints of midpoints: the divergences -/

theorem divN_zero (n : Nat) (rmid Er Dr : List ℚ) :
    divN n rmid Er Dr 0
      = { rmidmid := zeros (n - 1), div_Er := zeros (n - 1), div_Dr := zeros (n - 1) } := by
  simp [divN]

theorem divN_succ (n : Nat) (rmid Er Dr : List ℚ) (m : Nat) :
    divN n rmid Er Dr (m + 1) = divStep rmid Er Dr (divN n rmid Er Dr m) m := by
  simp [divN, List.range_succ, List.foldl_append]

theorem divergences_eq (n : Nat) (rmid Er Dr : List ℚ) :
    divergences n rmid Er Dr = divN n rmid Er Dr (n - 1) := rfl

theorem divN_length (n : Nat) (rmid Er Dr : List ℚ) (m : Nat) :
    (divN n rmid Er Dr m).rmidmid.length = n - 1 ∧
    (divN n rmid Er Dr m).div_Er.length = n - 1 ∧
    (divN n rmid Er Dr m).div_Dr.length = n - 1 := by
  induction m with
  | zero => simp [divN_zero, length_zeros]
  | succ m ih =>
    rw [divN_succ]
    simp only [divStep, length_wr]
    exact ih

theorem divN_rmidmid (n : Nat) (rmid Er Dr : List ℚ) (m : Nat) (hm : m ≤ n - 1) :
    ∀ j, rd (divN n rmid Er Dr m).rmidmid j
      = if j < m then 0.5 * rd rmid j + 0.5 * rd rmid (j + 1) else 0 := by
  induction m with
  | zero => intro j; simp [divN_zero, rd_zeros]
  | succ m ih =>
    obtain ⟨hl1, _, _⟩ := divN_length n rmid Er Dr m
    have ih1 := ih (by omega)
    intro j
    rw [divN_succ]
    simp only [divStep, rd_wr, hl1, ih1]
    by_cases hB : m = j
    · subst hB
      split_ifs <;> first | rfl | (exfalso; omega)
    · split_ifs <;> first | rfl | (exfalso; omega)

theorem divN_div_Er (n : Nat) (rmid Er Dr : List ℚ) (m : Nat) (hm : m ≤ n - 1) :
    ∀ j, rd (divN n rmid Er Dr m).div_Er j
      = if j < m then
          (rd Er (j + 1) + rd Er j) / (2 * (0.5 * rd rmid j + 0.5 * rd rmid (j + 1)))
            + (rd Er (j + 1) - rd Er j) / (rd rmid (j + 1) - rd rmid j)
        else 0 := by
  induction m with
  | zero => intro j; simp [divN_zero, rd_zeros]
  | succ m ih =>
    obtain ⟨hl1, hl2, _⟩ := divN_length n rmid Er Dr m
    have ih1 := ih (by omega)
    intro j
    rw [divN_succ]
    simp only [divStep, rd_wr, hl1, hl2, ih1]
    by_cases hB : m = j
    · subst hB
      simp only [true_and]
      split_ifs <;> first | rfl | (exfalso; omega)
    · split_ifs <;> first | rfl | (exfalso; omega)

theorem divN_div_Dr (n : Nat) (rmid Er Dr : List ℚ) (m : Nat) (hm : m ≤ n - 1) :
    ∀ j, rd (divN n rmid Er Dr m).div_Dr j
      = if j < m then
          (rd Dr (j + 1) + rd Dr j) / (2 * (0.5 * rd rmid j + 0.5 * rd rmid (j + 1)))
            + (rd Dr (j + 1) - rd Dr j) / (rd rmid (j + 1) - rd rmid j)
        else 0 := by
  induction m with
  | zero => intro j; simp [divN_zero, rd_zeros]
  | succ m ih =>
    obtain ⟨hl1, _, hl3⟩ := divN_length n rmid Er Dr m
    have ih1 := ih (by omega)
    intro j
    rw [divN_succ]
    simp only [divStep, rd_wr, hl1, hl3, ih1]
    by_cases hB : m = j
    · subst hB
      simp only [true_and]
      split_ifs <;> first | rfl | (exfalso; omega)
    · split_ifs <;> first | rfl | (exfalso; omega)

/-- The two-term expression of the program is the central difference of `r * F`. -/
theorem two_term_eq_central (a b f g : ℚ) (ha : 0 < a) (hab : a < b) :
    (g + f) / (2 * (0.5 * a + 0.5 * b)) + (g - f) / (b - a)
      = (b * g - a * f) / ((0.5 * a + 0.5 * b) * (b - a)) := by
  have h1 : b - a ≠ 0 := by
    intro h
    linarith
  have h2 : (0.5 : ℚ) * a + 0.5 * b ≠ 0 := by
    have : (0.5 : ℚ) * a + 0.5 * b = (a + b) / 2 := by
      norm_num
      ring
    rw [this]
    intro h
    linarith
  field_simp
  ring

/-- C12, amended. In exact arithmetic, the divergence: for every field `F` (`Er` or
`Dr`) and every `i` in `0..ninters-2` with `0 < rmid[i] < rmid[i+1]`, the computed value
`(F[i+1]+F[i])/(2*rmidmid[i]) + (F[i+1]-F[i])/(rmid[i+1]-rmid[i])`, with
`rmidmid[i] = (rmid[i]+rmid[i+1])/2`, equals
`(rmid[i+1]*F[i+1] - rmid[i]*F[i]) / (rmidmid[i]*(rmid[i+1]-rmid[i]))`. -/
theorem divergence_central_difference (ninters : Nat) (rmid Er Dr : List ℚ) (i : Nat)
    (hi : i + 1 < ninters) (h0 : 0 < rd rmid i) (hlt : rd rmid i < rd rmid (i + 1)) :
    rd (divergences ninters rmid Er Dr).rmidmid i = (rd rmid i + rd rmid (i + 1)) / 2 ∧
    rd (divergences ninters rmid Er Dr).div_Er i
      = (rd rmid (i + 1) * rd Er (i + 1) - rd rmid i * rd Er i)
          / (rd (divergences ninters rmid Er Dr).rmidmid i * (rd rmid (i + 1) - rd rmid i)) ∧
    rd (divergences ninters rmid Er Dr).div_Dr i
      = (rd rmid (i + 1) * rd Dr (i + 1) - rd rmid i * rd Dr i)
          / (rd (divergences ninters rmid Er Dr).rmidmid i * (rd rmid (i + 1) - rd rmid i)) := by
  have hm : i < ninters - 1 := by omega
  rw [divergences_eq, divN_rmidmid _ _ _ _ _ (Nat.le_refl _) i, if_pos hm,
    divN_div_Er _ _ _ _ _ (Nat.le_refl _) i, if_pos hm,
    divN_div_Dr _ _ _ _ _ (Nat.le_refl _) i, if_pos hm]
  refine ⟨?_, two_term_eq_central _ _ _ _ h0 hlt, two_term_eq_central _ _ _ _ h0 hlt⟩
  norm_num
  ring

theorem divergence_central_difference_witness :
    rd (divergences 3 [1, 3, 4] [2, 5, 1] [4, 7, 2]).rmidmid 1
      = (rd [1, 3, 4] 1 + rd [1, 3, 4] (1 + 1)) / 2 ∧
    rd (divergences 3 [1, 3, 4] [2, 5, 1] [4, 7, 2]).div_Er 1
      = (rd [1, 3, 4] (1 + 1) * rd [2, 5, 1] (1 + 1) - rd [1, 3, 4] 1 * rd [2, 5, 1] 1)
          / (rd (divergences 3 [1, 3, 4] [2, 5, 1] [4, 7, 2]).rmidmid 1
              * (rd [1, 3, 4] (1 + 1) - rd [1, 3, 4] 1)) ∧
    rd (divergences 3 [1, 3, 4] [2, 5, 1] [4, 7, 2]).div_Dr 1
      = (rd [1, 3, 4] (1 + 1) * rd [4, 7, 2] (1 + 1) - rd [1, 3, 4] 1 * rd [4, 7, 2] 1)
          / (rd (divergences 3 [1, 3, 4] [2, 5, 1] [4, 7, 2]).rmidmid 1
              * (rd [1, 3, 4] (1 + 1) - rd [1, 3, 4] 1)) :=
  divergence_central_difference 3 [1, 3, 4] [2, 5, 1] [4, 7, 2] 1 (by decide)
    (by norm_num [rd]) (by norm_num [rd])

/-- In `main`, under a valid mesh, the midpoints are positive and strictly increasing, so
the central-difference form applies to every computed divergence. -/
theorem rmid_pos_increasing (c : Config) (h1 : 1 ≤ c.N1) (h2 : 1 ≤ c.N2) (hb : 0 < c.b)
    (hR : c.b < c.R) (i : Nat) (hi : i + 1 < c.N1 + c.N2) :
    0 < rd (fields c).rmid i ∧ rd (fields c).rmid i < rd (fields c).rmid (i + 1) := by
  have ha := mesh_nonneg c h1 h2 hb hR i (by omega)
  have hs1 := mesh_step_pos c h1 h2 hb hR i (by omega)
  have hs2 := mesh_step_pos c h1 h2 hb hR (i + 1) (by omega)
  have e : (0.5 : ℚ) = 1 / 2 := by norm_num
  rw [fields_rmid c i (by omega), fields_rmid c (i + 1) (by omega), e]
  constructor <;> linarith


/-! ## Index safety of `solve` -/

theorem rdChecked_eq (v : List ℚ) (i : Nat) (h : i < v.length) :
    rdChecked v i = some (rd v i) := by
  unfold rdChecked rd
  rw [List.getD_eq_getElem?_getD, List.getElem?_eq_getElem h]
  rfl

theorem wrChecked_eq (v : List ℚ) (i : Nat) (x : ℚ) (h : i < v.length) :
    wrChecked v i x = some (wr v i x) := by
  unfold wrChecked wr
  rw [if_pos h]

theorem elimStepChecked_eq (lower upper : List ℚ) (s : List ℚ × List ℚ) (i : Nat)
    (h1 : 1 ≤ i) (hd : i < s.1.length) (hr : i < s.2.length) (hl : i - 1 < lower.length)
    (hu : i - 1 < upper.length) :
    elimStepChecked lower upper s i = some (elimStep lower upper s i) := by
  unfold elimStepChecked elimStep
  rw [rdChecked_eq lower (i - 1) hl, rdChecked_eq s.1 (i - 1) (by omega),
    rdChecked_eq upper (i - 1) hu, rdChecked_eq s.1 i hd, rdChecked_eq s.2 (i - 1) (by omega),
    rdChecked_eq s.2 i hr]
  simp only [Option.bind_eq_bind, Option.some_bind, wrChecked_eq _ _ _ hd,
    wrChecked_eq _ _ _ hr, Option.pure_def]

theorem elimChecked_eq (diag lower upper rhs : List ℚ) (hr : rhs.length = diag.length)
    (hl : diag.length - 1 ≤ lower.length) (hu : diag.length - 1 ≤ upper.length) (m : Nat)
    (hm : m + 1 ≤ diag.length) :
    (List.range' 1 m).foldlM (elimStepChecked lower upper) (diag, rhs)
      = some (elimN diag lower upper rhs m) := by
  induction m with
  | zero => simp [elimN_zero]
  | succ m ih =>
    have hlen := elimN_length diag lower upper rhs m
    rw [List.range'_concat, List.foldlM_append, ih (by omega)]
    simp only [Option.bind_eq_bind, Option.some_bind, List.foldlM_cons, List.foldlM_nil]
    have e : 1 + 1 * m = m + 1 := by omega
    rw [e, elimStepChecked_eq lower upper _ (m + 1) (by omega)
      (by rw [hlen.1]; omega) (by rw [hlen.2, hr]; omega) (by omega) (by omega), elimN_succ]
    rfl

theorem backStepChecked_eq (upper nd nr sol : List ℚ) (i : Nat) (hr : i < nr.length)
    (hu : i < upper.length) (hs : i + 1 < sol.length) (hd : i < nd.length) :
    backStepChecked upper nd nr sol i = some (backStep upper nd nr sol i) := by
  unfold backStepChecked backStep
  rw [rdChecked_eq nr i hr, rdChecked_eq upper i hu, rdChecked_eq sol (i + 1) hs,
    rdChecked_eq nd i hd]
  simp only [Option.bind_eq_bind, Option.some_bind]
  exact wrChecked_eq _ _ _ (by omega)

theorem backChecked_eq (upper nd nr : List ℚ) (m : Nat) (hr : m ≤ nr.length)
    (hu : m ≤ upper.length) (hd : m ≤ nd.length) :
    ∀ sol : List ℚ, m + 1 ≤ sol.length →
      (List.range m).reverse.foldlM (backStepChecked upper nd nr) sol
        = some (backFrom upper nd nr sol m) := by
  induction m with
  | zero => intro sol _; simp [backFrom_zero]
  | succ m ih =>
    intro sol hs
    rw [List.range_succ, List.reverse_append, List.reverse_singleton, List.singleton_append,
      List.foldlM_cons, backStepChecked_eq upper nd nr sol m (by omega) (by omega) (by omega)
        (by omega)]
    simp only [Option.bind_eq_bind, Option.some_bind]
    rw [ih (by omega) (by omega) (by omega) _ (by simp [backStep, length_wr]; omega),
      backFrom_succ]

/-- C20. Index safety of `solve`: for `n ≥ 1`, `diag` and `rhs` of length `n`, `lower` and
`upper` of length at least `n - 1`, every element access of `solve` is within bounds (the
checked run ends with the result of `solve`), and for `n = 1` the result is the single
value `rhs[0] / diag[0]`. -/
theorem solve_index_safety (n : Nat) (diag lower upper rhs : List ℚ) (hn : 1 ≤ n)
    (hd : diag.length = n) (hr : rhs.length = n) (hl : n - 1 ≤ lower.length)
    (hu : n - 1 ≤ upper.length) :
    solveChecked diag lower upper rhs = some (solve diag lower upper rhs) ∧
    (n = 1 → solve diag lower upper rhs = [rd rhs 0 / rd diag 0]) := by
  subst hd
  have hlen := elimN_length diag lower upper rhs (diag.length - 1)
  constructor
  · unfold solveChecked
    simp only []
    rw [elimChecked_eq diag lower upper rhs hr hl hu (diag.length - 1) (by omega)]
    simp only [Option.bind_eq_bind, Option.some_bind]
    rw [rdChecked_eq _ _ (by rw [hlen.2, hr]; omega), rdChecked_eq _ _ (by rw [hlen.1]; omega)]
    simp only [Option.some_bind]
    rw [wrChecked_eq _ _ _ (by rw [length_zeros]; omega)]
    simp only [Option.some_bind]
    rw [backChecked_eq upper _ _ (diag.length - 1) (by rw [hlen.2, hr]; omega) hu
      (by rw [hlen.1]; omega) _ (by rw [length_wr, length_zeros]; omega), solve_eq,
      eliminate_eq]
  · intro h1
    have hs := solve_last diag lower upper rhs hn
    have hz := eliminate_zero_row diag lower upper rhs
    rw [h1] at hs
    simp only [Nat.sub_self] at hs
    rw [hz.1, hz.2] at hs
    have hlen' := solve_length diag lower upper rhs
    rw [h1] at hlen'
    match hsol : solve diag lower upper rhs, hlen' with
    | [x], _ =>
      rw [hsol] at hs
      simp only [rd, List.getD_cons_zero] at hs ⊢
      rw [hs]

theorem solve_index_safety_witness :
    solveChecked [2, 3, 4] [1, 1] [1, 1] [3, 4, 5] = some (solve [2, 3, 4] [1, 1] [1, 1] [3, 4, 5]) ∧
    (3 = 1 → solve [2, 3, 4] [1, 1] [1, 1] [3, 4, 5] = [rd [3, 4, 5] 0 / rd [2, 3, 4] 0]) :=
  solve_index_safety 3 [2, 3, 4] [1, 1] [1, 1] [3, 4, 5] (by decide) rfl rfl (by decide)
    (by decide)

/-! ## The program in binary64: vectors and fill loops -/

/-- C10 as stated fails in binary64: for scenario 1 with `V0 = 3e21` (trivial mode, a valid
configuration) the computed potential has `phi[3] < phi[4]`. -/
theorem phi_monotone_trivial_counterexample :
    largePotential.trivial = true ∧ 1 ≤ largePotential.N1 ∧ 1 ≤ largePotential.N2 ∧
    (0 : F64) < largePotential.b ∧ largePotential.b < largePotential.R ∧
    (0 : F64) ≤ largePotential.p ∧ largePotential.p ≤ 1 ∧ 3 < largePotential.ninters ∧
    rd64 (phi64 largePotential) 3 < rd64 (phi64 largePotential) (3 + 1) ∧
    ¬ (rd64 (phi64 largePotential) (3 + 1) ≤ rd64 (phi64 largePotential) 3) := by
  decide!

/-- C19 as stated fails in binary64: for scenario 3 and the inner interval `k = 2` the
computed `integral` is `2.4999999999999996`, not `k + 1/2 = 2.5`. -/
theorem stiff_inner_closed_form_counterexample :
    1 ≤ scenario3_64.N1 ∧ 1 ≤ scenario3_64.N2 ∧ (0 : F64) < scenario3_64.b ∧
    scenario3_64.b < scenario3_64.R ∧ 2 < scenario3_64.N1 ∧
    integral64 scenario3_64 (mesh64 scenario3_64) (widths64 scenario3_64 (mesh64 scenario3_64)) 2
      = 2.4999999999999996 ∧
    integral64 scenario3_64 (mesh64 scenario3_64) (widths64 scenario3_64 (mesh64 scenario3_64)) 2
      ≠ 2.5 := by
  decide!


/-- C12 as stated fails in binary64: for `rmid = [0.1, 0.3]` and `F = [0.7, 0.2]` the value
stored by the program, `-0.25000000000000044`, is neither the central-difference
expression evaluated in binary64 (`-0.24999999999999986`) nor its exact value on the
stored numbers. -/
theorem divergence_central_difference_counterexample :
    0 + 1 < 2 ∧ (0 : F64) < rd64 [0.1, 0.3] 0 ∧ rd64 [0.1, 0.3] 0 < rd64 [0.1, 0.3] (0 + 1) ∧
    rd64 (divergences64 2 [0.1, 0.3] [0.7, 0.2] [0.7, 0.2]).div_Er 0
      ≠ (rd64 [0.1, 0.3] (0 + 1) * rd64 [0.7, 0.2] (0 + 1) - rd64 [0.1, 0.3] 0 * rd64 [0.7, 0.2] 0)
          / (rd64 (divergences64 2 [0.1, 0.3] [0.7, 0.2] [0.7, 0.2]).rmidmid 0
              * (rd64 [0.1, 0.3] (0 + 1) - rd64 [0.1, 0.3] 0)) ∧
    (rd64 (divergences64 2 [0.1, 0.3] [0.7, 0.2] [0.7, 0.2]).div_Er 0).toRat
      ≠ ((0.3 : F64).toRat * (0.2 : F64).toRat - (0.1 : F64).toRat * (0.7 : F64).toRat)
          / (((0.1 : F64).toRat + (0.3 : F64).toRat) / 2
              * ((0.3 : F64).toRat - (0.1 : F64).toRat)) := by
  decide!

/-- C17 as stated fails in binary64: for `b = 1`, `R = 2`, `N1 = N2 = 1`, `p = 0.3` in
trivial mode, a valid configuration, the stored `rhs[1]` is `0.9999999999999999`; the
formula of the claim gives `1.0` when evaluated in binary64, and its exact value on the
stored numbers differs from the stored `rhs[1]` as well. -/
theorem load_vector_counterexample :
    1 ≤ unitPair.N1 ∧ 1 ≤ unitPair.N2 ∧ (0 : F64) < unitPair.b ∧ unitPair.b < unitPair.R ∧
    (0 : F64) ≤ unitPair.p ∧ unitPair.p ≤ 1 ∧ 0 < 1 ∧ 1 < unitPair.ninters ∧
    rd64 (assemble64 unitPair).rhs 1
      ≠ unitPair.p * rho_lib64 unitPair.trivial unitPair.b unitPair.a0 (rd64 (mesh64 unitPair) 1)
            * rd64 (mesh64 unitPair) 1
            * (rd64 (widths64 unitPair (mesh64 unitPair)) (1 - 1)
              + rd64 (widths64 unitPair (mesh64 unitPair)) 1) / 2
          + (1 - unitPair.p)
            * (rho_lib64 unitPair.trivial unitPair.b unitPair.a0
                  ((rd64 (mesh64 unitPair) (1 - 1) + rd64 (mesh64 unitPair) 1) / 2)
                * ((rd64 (mesh64 unitPair) (1 - 1) + rd64 (mesh64 unitPair) 1) / 2)
                * rd64 (widths64 unitPair (mesh64 unitPair)) (1 - 1)
              + rho_lib64 unitPair.trivial unitPair.b unitPair.a0
                  ((rd64 (mesh64 unitPair) 1 + rd64 (mesh64 unitPair) (1 + 1)) / 2)
                * ((rd64 (mesh64 unitPair) 1 + rd64 (mesh64 unitPair) (1 + 1)) / 2)
                * rd64 (widths64 unitPair (mesh64 unitPair)) 1) / 2 ∧
    (rd64 (assemble64 unitPair).rhs 1).toRat
      ≠ unitPair.p.toRat * 1 * (rd64 (mesh64 unitPair) 1).toRat
            * ((rd64 (widths64 unitPair (mesh64 unitPair)) 0).toRat
              + (rd64 (widths64 unitPair (mesh64 unitPair)) 1).toRat) / 2
          + (1 - unitPair.p.toRat)
            * (1 * (((rd64 (mesh64 unitPair) 0).toRat + (rd64 (mesh64 unitPair) 1).toRat) / 2)
                * (rd64 (widths64 unitPair (mesh64 unitPair)) 0).toRat
              + 1 * (((rd64 (mesh64 unitPair) 1).toRat + (rd64 (mesh64 unitPair) 2).toRat) / 2)
                * (rd64 (widths64 unitPair (mesh64 unitPair)) 1).toRat) / 2 := by
  decide!

/-- C18 as stated fails in binary64: for scenario 1 and `k = 1` the computed
`integral_1 * (phi[1] - phi[2])` is `0.25000000000000044` and `rhs[0] + rhs[1]` is `0.25`;
the two differ whether the product and the sum are rounded or taken exactly on the stored
numbers, and so does `integral_1 * h[1] * Er[1]`. -/
theorem flux_conservation_counterexample :
    1 ≤ scenario1_64.N1 ∧ 1 ≤ scenario1_64.N2 ∧ (0 : F64) < scenario1_64.b ∧
    scenario1_64.b < scenario1_64.R ∧ (0 : F64) ≤ scenario1_64.p ∧ scenario1_64.p ≤ 1 ∧
    1 < scenario1_64.ninters ∧
    integral64 scenario1_64 (mesh64 scenario1_64) (widths64 scenario1_64 (mesh64 scenario1_64)) 1
        * (rd64 (phi64 scenario1_64) 1 - rd64 (phi64 scenario1_64) (1 + 1))
      ≠ rd64 (assemble64 scenario1_64).rhs 0 + rd64 (assemble64 scenario1_64).rhs 1 ∧
    (integral64 scenario1_64 (mesh64 scenario1_64)
          (widths64 scenario1_64 (mesh64 scenario1_64)) 1).toRat
        * ((rd64 (phi64 scenario1_64) 1).toRat - (rd64 (phi64 scenario1_64) (1 + 1)).toRat)
      ≠ (rd64 (assemble64 scenario1_64).rhs 0).toRat
          + (rd64 (assemble64 scenario1_64).rhs 1).toRat ∧
    integral64 scenario1_64 (mesh64 scenario1_64) (widths64 scenario1_64 (mesh64 scenario1_64)) 1
        * rd64 (widths64 scenario1_64 (mesh64 scenario1_64)) 1 * rd64 (fields64 scenario1_64).Er 1
      ≠ rd64 (assemble64 scenario1_64).rhs 0 + rd64 (assemble64 scenario1_64).rhs 1 := by
  decide!


end Exercice6
